import Mathlib

/-!
Verification development for the Cardz repository: a shallow embedding of
`suit_card_deck/__init__.py` (Suit, Card, Pile, Deck) and `klondike.py`
(the Klondike game engine), with theorems settling the specification
claims about them.

Modelling conventions:
* A Python `Card` is identified by its absolute position 0..51; suit, rank,
  natural rank, colour and suit initial are derived exactly as in the source
  (`divmod(position, 13)` and the class tables).  The `_deck` back pointer is
  not modelled: the embedding works with a single deck, so every Card belongs
  to it (the `card._deck is not self` guard of `put_back_card` can never fire).
* A Python `Pile` is its list of cards, index 0 = top.  The flag attribute is
  supplied where it is consulted (`can_play_to`); in the game each pile's flag
  is fixed at construction ('C' 'D' 'H' 'S' for the foundations, 'T' for the
  tableau piles, 'P' for the pack).
* Exceptions are modelled with `Except String`; an operation that raises in
  Python returns `.error`.  On success the Lean functions compute exactly the
  state the Python methods leave behind.
* `random.shuffle` is modelled by passing the permuted list as an explicit
  argument (`shuffled`); that a real shuffle always delivers a permutation of
  its input is stated as a hypothesis where needed.  Likewise the random
  variant of `cut` draws `cards_to_take` in the legal range and then proceeds
  exactly like the explicit variant modelled here.
-/

/-- `Suit.colors` table of the source: `('black','red','red','black')`. -/
def Suit.colors : List String := ["black", "red", "red", "black"]

/-- First letters of `Suit.names = ('Club','Diamond','Heart','Spade')`,
as returned by `Suit.initial()`. -/
def Suit.initials : List Char := ['C', 'D', 'H', 'S']

/-- A playing card, identified by its absolute position 0..51
(`Card._pos` in the source). -/
structure Card where
  pos : Nat
deriving DecidableEq, Repr

/-- `self._s` of the source: `divmod(position, 13)` first component. -/
def Card.suitIdx (c : Card) : Nat := c.pos / 13

/-- `self._p` of the source: position within the suit, 0 (deuce) .. 12 (Ace). -/
def Card.suitOff (c : Card) : Nat := c.pos % 13

/-- `Card.color()`, via `self.suit().color()` and the `Suit.colors` table. -/
def Card.color (c : Card) : String := Suit.colors.getD c.suitIdx ""

/-- `Card.suit().initial()`. -/
def Card.suitInitial (c : Card) : Char := Suit.initials.getD c.suitIdx ' '

/-- `Card.rank()`: `Rank(2 + self._p)`, deuce = 2 .. Ace = 14 (`Rank.rA`). -/
def Card.rank (c : Card) : Nat := 2 + c.suitOff

/-- `Card.nrank()`: `1 + self._p if self._p < 12 else 0`. -/
def Card.nrank (c : Card) : Nat := if c.suitOff < 12 then 1 + c.suitOff else 0

/-- The list of positions held in a pile. -/
def pilePos (p : List Card) : List Nat := p.map Card.pos

/-- Exception-propagating sequencing: run `x`; on success feed the value to
`f`, on failure propagate the error (Python: an uncaught exception aborts
the enclosing call). -/
def ebind {α β : Type} (x : Except String α) (f : α → Except String β) :
    Except String β :=
  match x with
  | .error e => .error e
  | .ok v => f v

@[simp] theorem ebind_ok {α β : Type} (v : α) (f : α → Except String β) :
    ebind (.ok v) f = f v := rfl

@[simp] theorem ebind_error {α β : Type} (e : String) (f : α → Except String β) :
    ebind (.error e) f = .error e := rfl

theorem ebind_eq_ok {α β : Type} {x : Except String α} {f : α → Except String β}
    {r : β} (h : ebind x f = .ok r) : ∃ v, x = .ok v ∧ f v = .ok r := by
  cases x with
  | error e => simp [ebind] at h
  | ok v => exact ⟨v, rfl, h⟩

theorem ebind_eq_error {α β : Type} {x : Except String α} {f : α → Except String β}
    {e : String} (h : ebind x f = .error e) :
    x = .error e ∨ ∃ v, x = .ok v ∧ f v = .error e := by
  cases x with
  | error e2 => rw [ebind_error] at h; cases h; exact Or.inl rfl
  | ok v => exact Or.inr ⟨v, rfl, h⟩

/-- `Pile.receive(card)`: scan for a card with equal position
(raising `PilingError` on a duplicate), else `insert(0, card)`. -/
def receive (p : List Card) (card : Card) : Except String (List Card) :=
  if card.pos ∈ pilePos p then .error "Card already in Pile"
  else .ok (card :: p)

/-- `Pile.remove()`: pop the top card, `PilingError` when empty. -/
def remove (p : List Card) : Except String (Card × List Card) :=
  match p with
  | [] => .error "Cannot take a card from an empty Pile"
  | c :: rest => .ok (c, rest)

/-- `Pile.turn_over()`: `self._cards = list(reversed(self._cards))`. -/
def turn_over (p : List Card) : List Card := p.reverse

/-- The `while len(pile): pile_cards.insert(0, pile.remove())` loop of
`receive_pile`: drains a pile top first, prepending each card to `acc`. -/
def drainLoop : List Card → List Card → List Card
  | [], acc => acc
  | c :: rest, acc => drainLoop rest (c :: acc)

/-- The `for card in pile_cards: self.receive(card)` loop shared by
`receive_pile` and `remove_pile`. -/
def receiveEach (self : List Card) : List Card → Except String (List Card)
  | [] => .ok self
  | c :: rest => ebind (receive self c) fun s => receiveEach s rest

/-- `Pile.receive_pile(pile)`: drain the donor into a scratch list (reversing
it), then receive each card; the donor ends empty.  Returns the updated
receiver and the (emptied) donor. -/
def receive_pile (self pile : List Card) : Except String (List Card × List Card) :=
  ebind (receiveEach self (drainLoop pile [])) fun s => .ok (s, [])

/-- The `for j in range(cards_to_take): pile_cards.insert(0, self.remove())`
loop of `remove_pile`. -/
def removeLoop : Nat → List Card → List Card → Except String (List Card × List Card)
  | 0, p, acc => .ok (acc, p)
  | n + 1, p, acc =>
    ebind (remove p) fun cr => removeLoop n cr.2 (cr.1 :: acc)

/-- `Pile.remove_pile(cards_to_take)`: if `cards_to_take <= len(self._cards)`
remove that many cards top first and receive them into a fresh pile (a
Python `range` over a non-positive count is empty, so a non-positive
`cards_to_take` passes the guard and removes nothing); otherwise raise
`PilingError`.  Returns the new pile and the shortened source. -/
def remove_pile (cards_to_take : Int) (self : List Card) :
    Except String (List Card × List Card) :=
  if cards_to_take ≤ (self.length : Int) then
    ebind (removeLoop cards_to_take.toNat self []) fun ps =>
      ebind (receiveEach [] ps.1) fun new_pile => .ok (new_pile, ps.2)
  else .error "Cannot take more cards than exist in a Pile"

/-- The state of a `Deck`: the indirection array `self._access` and the
cursor `self._top`.  The backing array `self._cards` never changes and
satisfies `_cards[p] = Card(p)`, so it needs no field: the card stored at
slot-index `p` is simply `Card.mk p`. -/
structure Deck where
  access : List Nat
  top : Nat
deriving DecidableEq, Repr

/-- `Deck.__init__`: `access = list(range(52))`, `top = 0`. -/
def Deck.init : Deck := { access := List.range 52, top := 0 }

/-- `Deck._cards_left()`: `len(self._access) - self._top`. -/
def Deck.cards_left (d : Deck) : Nat := d.access.length - d.top

/-- `Deck.deal()`: when `top <= 51` return `_cards[_access[_top]]` and
increment `top`, else raise `EmptyDeckError`. -/
def Deck.deal (d : Deck) : Except String (Card × Deck) :=
  if d.top ≤ 51 then
    .ok (⟨d.access.getD d.top 0⟩, { d with top := d.top + 1 })
  else .error "Cannot deal from empty deck"

/-- `n` successive `deal()` calls, collecting the dealt cards in order. -/
def Deck.dealSeq : Nat → Deck → Except String (List Card × Deck)
  | 0, d => .ok ([], d)
  | n + 1, d =>
    ebind d.deal fun cd =>
      ebind (Deck.dealSeq n cd.2) fun cs => .ok (cd.1 :: cs.1, cs.2)

/-- `Deck.shuffle(times)`: raise on a fully dealt deck, no-op on a one-card
deck, else replace the undealt slice `access[top:]` by its reshuffled
arrangement (the code's `top > 0` and `top == 0` branches assign the same
result).  `shuffled` stands for the outcome of the `times` passes of
`random.shuffle` applied to `access[top:]`. -/
def Deck.shuffle (shuffled : List Nat) (d : Deck) : Except String Deck :=
  if 51 < d.top then .error "shuffling empty deck"
  else if d.top = 51 then .ok d
  else .ok { d with access := d.access.take d.top ++ shuffled }

/-- `Deck.cut(cards_to_take, minimum_cut)` with an explicit count: raise
unless `2*minimum_cut` cards remain; raise if the cut would take or leave
fewer than `minimum_cut`; else rearrange
`access = access[:top] + access[top+n:] + access[top:top+n]`.
(The `cards_to_take is None` variant draws `n` uniformly from the legal
range and then performs the identical rearrangement.) -/
def Deck.cut (cards_to_take minimum_cut : Nat) (d : Deck) : Except String Deck :=
  if d.cards_left < 2 * minimum_cut then
    .error "Cut takes or leaves fewer than minimum cut"
  else if cards_to_take < minimum_cut ∨ d.cards_left - minimum_cut < cards_to_take then
    .error "Cut takes or leaves fewer than minimum cut"
  else
    .ok { d with access :=
      d.access.take d.top ++ d.access.drop (d.top + cards_to_take)
        ++ (d.access.drop d.top).take cards_to_take }

/-- `Deck.put_back_card(card)`: raise `MismatchedDeckError` if the card's
slot-index still sits in the undealt slice; otherwise `access.remove(C)`
(which itself raises when `C` is absent, hence the second guard), append
`C` at the very end, and decrement `top`.  (On every success path `top >= 1`,
see `put_back_card_ok`, so natural subtraction agrees with Python.) -/
def Deck.put_back_card (card : Card) (d : Deck) : Except String Deck :=
  if card.pos ∈ d.access.drop d.top then
    .error "Cannot return a card that has not been dealt"
  else if card.pos ∈ d.access then
    .ok { access := d.access.erase card.pos ++ [card.pos], top := d.top - 1 }
  else .error "list.remove: element not in list"

/-- `Deck.put_back_pile(pile)`: `while len(pile): put_back_card(pile.remove())`;
returns the updated deck and the emptied pile. -/
def Deck.put_back_pile : List Card → Deck → Except String (Deck × List Card)
  | [], d => .ok (d, [])
  | c :: rest, d =>
    ebind (d.put_back_card c) fun d2 => Deck.put_back_pile rest d2

/-- The state held by `Klondike.__init__`: four foundation piles (`self.aces`,
flags 'C' 'D' 'H' 'S'), seven tableau piles (flag 'T'), the deck, the pack
(flag 'P'), and the per-column `faceup_count` list.  The counts are `Int`
because Python integers go negative under the `-=` bookkeeping when started
from a malformed state. -/
structure Klondike where
  aces : List (List Card)
  tableau : List (List Card)
  deck : Deck
  pack : List Card
  faceup_count : List Int
deriving DecidableEq, Repr

/-- A resolved move source: `'P'` is `Src.pack`, digit `'1'..'7'` is
`Src.tab` of the corresponding 0-based index. -/
inductive Src
  | pack
  | tab (i : Fin 7)
deriving DecidableEq, Repr

/-- A resolved move destination: `'C' 'D' 'H' 'S'` is `Dst.found` of index
0..3, digit `'1'..'7'` is `Dst.tab` of the 0-based index. -/
inductive Dst
  | found (i : Fin 4)
  | tab (i : Fin 7)
deriving DecidableEq, Repr

/-- The `source_pile` resolved by `Klondike.move`. -/
def sourcePile (g : Klondike) : Src → List Card
  | .pack => g.pack
  | .tab i => g.tableau.getD i []

/-- The `dest_pile` resolved by `Klondike.move`. -/
def destPile (g : Klondike) : Dst → List Card
  | .found i => g.aces.getD i []
  | .tab j => g.tableau.getD j []

/-- The flag of a destination pile: foundations were built as
`Pile('C'), Pile('D'), Pile('H'), Pile('S')`, tableau piles as `Pile('T')`. -/
def destFlag : Dst → Char
  | .found i => Suit.initials.getD i ' '
  | .tab _ => 'T'

/-- The `dest_pile == source_pile` identity test of `Klondike.move`: the
pack, foundations and tableau piles are pairwise distinct objects, so only
a tableau source and destination with equal index coincide. -/
def samePile : Src → Dst → Bool
  | .tab i, .tab j => decide (i = j)
  | _, _ => false

/-- `Klondike.can_play_to(card, dest)`.  With a non-empty destination the
second disjunct of each Python expression is falsy and with an empty one the
first is, so the `or`-of-`and`s reduces to this case split.  `dest[0]` is
only reached when `len(dest)` is truthy (`and` short-circuits). -/
def canPlayTo (card : Card) (flag : Char) (dest : List Card) : Bool :=
  if flag = 'T' then
    match dest with
    | top :: _ =>
      decide (card.rank < 14) && decide (card.color ≠ top.color)
        && decide (top.rank = card.rank + 1)
    | [] => decide (card.rank = 13)
  else
    match dest with
    | top :: _ =>
      decide (card.suitIdx = top.suitIdx) && decide (card.nrank = top.nrank + 1)
    | [] => decide (card.suitInitial = flag) && decide (card.rank = 14)

/-- Python list indexing `l[i]`: a non-negative index reads from the front,
a negative index `-k` reads element `len - k` provided `k <= len`; anything
else raises IndexError (modelled by `none`). -/
def pyGet (l : List α) (i : Int) : Option α :=
  if 0 ≤ i then l[i.toNat]?
  else if (-i).toNat ≤ l.length then l[l.length - (-i).toNat]?
  else none

/-- The single-card transfer shared by the fallback of a tableau-to-tableau
move and by every other source/destination combination:
`if can_play_to(source_pile[0], dest_pile): dest_pile.receive(source_pile.remove())`,
with `cards_moved = 1`; raises *invalid-move* otherwise (indexing an empty
source would raise, but `move` has already checked the source is
non-empty). -/
def singleMove (flag : Char) (dest_pile : List Card) :
    List Card → Except String (List Card × List Card × Int)
  | [] => .error "IndexError: list index out of range"
  | c :: rest =>
    if canPlayTo c flag dest_pile then
      ebind (receive dest_pile c) fun dst2 => .ok (rest, dst2, 1)
    else .error "Invalid move"

/-- The branch of `Klondike.move` that picks the cards to transfer: for a
tableau-to-tableau move first try the whole face-up run (legal when the
deepest face-up card `source_pile[source_faceup_count-1]` can be played),
else fall back to the single top card; for any other combination move the
single top card.  Returns the shortened source, the grown destination, and
`cards_moved`. -/
def moveBranch (g : Klondike) (src : Src) (dst : Dst)
    (source_pile dest_pile : List Card) :
    Except String (List Card × List Card × Int) :=
  match src, dst with
  | Src.tab i, Dst.tab _ =>
    match pyGet source_pile (g.faceup_count.getD i 0 - 1) with
    | none => .error "IndexError: list index out of range"
    | some source_high_card =>
      if canPlayTo source_high_card 'T' dest_pile then
        ebind (remove_pile (g.faceup_count.getD i 0) source_pile) fun rs =>
          ebind (receive_pile dest_pile rs.1) fun de =>
            .ok (rs.2, de.1, g.faceup_count.getD i 0)
      else singleMove 'T' dest_pile source_pile
  | _, _ => singleMove (destFlag dst) dest_pile source_pile

/-- Write back the shortened source pile. -/
def setSource (g : Klondike) (src : Src) (p : List Card) : Klondike :=
  match src with
  | .pack => { g with pack := p }
  | .tab i => { g with tableau := g.tableau.set i p }

/-- Write back the grown destination pile. -/
def setDest (g : Klondike) (dst : Dst) (p : List Card) : Klondike :=
  match dst with
  | .found i => { g with aces := g.aces.set i p }
  | .tab j => { g with tableau := g.tableau.set j p }

/-- `if dest_is_tableau: faceup_count[dest_number] += cards_moved`. -/
def bumpDestFaceup (g : Klondike) (dst : Dst) (cards_moved : Int) : Klondike :=
  match dst with
  | .tab j =>
    { g with faceup_count := g.faceup_count.set j (g.faceup_count.getD j 0 + cards_moved) }
  | .found _ => g

/-- `if source_is_tableau:` deduct `cards_moved` from the source's face-up
count; if that leaves zero and the (already shortened) source pile `src2`
still has cards, set it to 1. -/
def dropSourceFaceup (g : Klondike) (src : Src) (src2 : List Card)
    (cards_moved : Int) : Klondike :=
  match src with
  | .tab i =>
    if (g.faceup_count.set i (g.faceup_count.getD i 0 - cards_moved)).getD i 0 = 0
        ∧ src2.length ≠ 0 then
      { g with faceup_count :=
          (g.faceup_count.set i (g.faceup_count.getD i 0 - cards_moved)).set i 1 }
    else
      { g with faceup_count :=
          g.faceup_count.set i (g.faceup_count.getD i 0 - cards_moved) }
  | .pack => g

/-- `Klondike.move(source_letter, dest_letter)` after resolving the letters:
empty-source check, same-pile check, the transfer branch, then the face-up
bookkeeping in source order (destination first, then source). -/
def move (g : Klondike) (src : Src) (dst : Dst) : Except String Klondike :=
  if (sourcePile g src).length = 0 then .error "No cards in source"
  else if samePile src dst then .error "Source and destination are the same"
  else
    ebind (moveBranch g src dst (sourcePile g src) (destPile g dst)) fun sdm =>
      .ok (dropSourceFaceup
            (bumpDestFaceup (setDest (setSource g src sdm.1) dst sdm.2.1) dst sdm.2.2)
            src sdm.1 sdm.2.2)

/-- The `for k in range(min(3, len(self.deck))): self.pack.receive(self.deck.deal())`
loop of `turn_the_deck` (the bound is fixed before the loop starts). -/
def dealToPackLoop : Nat → Klondike → Except String Klondike
  | 0, g => .ok g
  | k + 1, g =>
    ebind g.deck.deal fun cd =>
      ebind (receive g.pack cd.1) fun p2 =>
        dealToPackLoop k { g with deck := cd.2, pack := p2 }

/-- `Klondike.turn_the_deck()`: on an exhausted deck either return (empty
pack) or turn the pack over and put it back in the deck, then fall through
to the deal loop; on a non-exhausted deck just run the deal loop. -/
def turn_the_deck (g : Klondike) : Except String Klondike :=
  if g.deck.cards_left = 0 then
    if g.pack.length ≠ 0 then
      ebind (Deck.put_back_pile (turn_over g.pack) g.deck) fun dp =>
        dealToPackLoop (min 3 dp.1.cards_left) { g with deck := dp.1, pack := dp.2 }
    else .ok g
  else dealToPackLoop (min 3 g.deck.cards_left) g

/-- The inner loop `for p in range(j, 7): self.tableau[p].receive(self.deck.deal())`
of `Klondike.__init__`, with `k = 7 - j` iterations remaining and `p` the
next column. -/
def dealInner : Nat → Nat → Deck → List (List Card) →
    Except String (Deck × List (List Card))
  | 0, _, d, t => .ok (d, t)
  | k + 1, p, d, t =>
    ebind d.deal fun cd =>
      ebind (receive (t.getD p []) cd.1) fun col =>
        dealInner k (p + 1) cd.2 (t.set p col)

/-- The outer loop `for j in range(7)` of `Klondike.__init__`. -/
def dealOuter : Nat → Nat → Deck → List (List Card) →
    Except String (Deck × List (List Card))
  | 0, _, d, t => .ok (d, t)
  | k + 1, j, d, t =>
    ebind (dealInner (7 - j) j d t) fun dt => dealOuter k (j + 1) dt.1 dt.2

/-- `Klondike.__init__` (a new game): fresh foundations, tableau, deck and
pack; shuffle the deck (`times=5`, outcome `shuffled`); deal the tableau
triangularly; set every face-up count to 1. -/
def newGame (shuffled : List Nat) : Except String Klondike :=
  ebind (Deck.init.shuffle shuffled) fun d0 =>
    ebind (dealOuter 7 0 d0 (List.replicate 7 [])) fun dt =>
      .ok { aces := [[], [], [], []], tableau := dt.2, deck := dt.1, pack := [],
            faceup_count := List.replicate 7 1 }

/-- Total number of cards a game state holds: foundations, tableau columns,
pack, and the undealt portion of the deck. -/
def totalCards (g : Klondike) : Nat :=
  (g.aces.map List.length).sum + (g.tableau.map List.length).sum
    + g.pack.length + g.deck.cards_left

/-- Game states reachable from a new game by successful `move` and
`turn_the_deck` calls.  The `init` constructor records the modelling
contract of `random.shuffle`: the reshuffled arrangement is a permutation
of the undealt slice, which for a fresh deck is `0..51`. -/
inductive Reach : Klondike → Prop
  | init (shuffled : List Nat) (g : Klondike) :
      shuffled.Perm (List.range 52) → newGame shuffled = .ok g → Reach g
  | mv (g : Klondike) (src : Src) (dst : Dst) (g2 : Klondike) :
      Reach g → move g src dst = .ok g2 → Reach g2
  | turn (g g2 : Klondike) :
      Reach g → turn_the_deck g = .ok g2 → Reach g2

/-! ### Generic list helpers -/

theorem getD_set_self {α : Type} (l : List α) (i : Nat) (x d : α) (h : i < l.length) :
    (l.set i x).getD i d = x := by
  rw [List.getD_eq_getElem?_getD, List.getElem?_set_self h]
  rfl

theorem getD_set_ne {α : Type} (l : List α) {i j : Nat} (x d : α) (h : i ≠ j) :
    (l.set i x).getD j d = l.getD j d := by
  rw [List.getD_eq_getElem?_getD, List.getElem?_set_ne h, ← List.getD_eq_getElem?_getD]

/-- Multiset of positions across a list of piles. -/
def flatPos (ls : List (List Card)) : List Nat := (ls.map pilePos).flatten

theorem flatPos_set (ls : List (List Card)) (i : Nat) (x : List Card)
    (h : i < ls.length) :
    (flatPos (ls.set i x) : Multiset Nat) + ↑(pilePos (ls.getD i [])) =
      ↑(pilePos x) + ↑(flatPos ls) := by
  have hset : ls.set i x = ls.take i ++ x :: ls.drop (i + 1) := by
    rw [List.set_eq_take_append_cons_drop, if_pos h]
  have hsplit : ls.take i ++ ls[i] :: ls.drop (i + 1) = ls := by
    conv_rhs => rw [← List.take_append_drop i ls]
    rw [List.drop_eq_getElem_cons h]
  have hget : ls.getD i [] = ls[i] := List.getD_eq_getElem ls [] h
  calc (flatPos (ls.set i x) : Multiset Nat) + ↑(pilePos (ls.getD i []))
      = ↑(flatPos (ls.take i ++ x :: ls.drop (i + 1))) + ↑(pilePos ls[i]) := by
        rw [hset, hget]
    _ = ↑(pilePos x) + ↑(flatPos (ls.take i ++ ls[i] :: ls.drop (i + 1))) := by
        unfold flatPos
        simp only [List.map_append, List.map_cons, List.flatten_append,
          List.flatten_cons, ← Multiset.coe_add]
        abel
    _ = ↑(pilePos x) + ↑(flatPos ls) := by rw [hsplit]

/-! ### Pile operation lemmas -/

theorem drainLoop_eq (p acc : List Card) : drainLoop p acc = p.reverse ++ acc := by
  induction p generalizing acc with
  | nil => simp [drainLoop]
  | cons c rest ih => simp [drainLoop, ih]

theorem receive_ok_iff {p q : List Card} {c : Card} :
    receive p c = .ok q ↔ c.pos ∉ pilePos p ∧ q = c :: p := by
  unfold receive
  split
  · simp only [reduceCtorEq, false_iff]; intro h; exact h.1 (by assumption)
  · constructor
    · intro h; exact ⟨by assumption, by cases h; rfl⟩
    · intro h; rw [h.2]

theorem receiveEach_ok {l : List Card} {s r : List Card}
    (h : receiveEach s l = .ok r) : r = l.reverse ++ s := by
  induction l generalizing s with
  | nil => simp [receiveEach] at h; simp [h]
  | cons c rest ih =>
    unfold receiveEach at h
    obtain ⟨s2, hrc, h2⟩ := ebind_eq_ok h
    obtain ⟨-, rfl⟩ := receive_ok_iff.mp hrc
    have := ih h2
    simp [this]

theorem receiveEach_error {l s : List Card} {e : String}
    (h : receiveEach s l = .error e) : e = "Card already in Pile" := by
  induction l generalizing s with
  | nil => simp [receiveEach] at h
  | cons c rest ih =>
    unfold receiveEach at h
    cases hrc : receive s c with
    | error e2 =>
      rw [hrc, ebind_error] at h
      cases h
      unfold receive at hrc
      revert hrc
      split
      · intro hrc; cases hrc; rfl
      · intro hrc; cases hrc
    | ok s2 =>
      rw [hrc, ebind_ok] at h
      exact ih h

theorem receiveEach_run {l s : List Card}
    (h : (pilePos (l.reverse ++ s)).Nodup) :
    receiveEach s l = .ok (l.reverse ++ s) := by
  induction l generalizing s with
  | nil => simp [receiveEach]
  | cons c rest ih =>
    have hl : (c :: rest).reverse ++ s = rest.reverse ++ (c :: s) := by simp
    rw [hl] at h ⊢
    have hcs : c.pos ∉ pilePos s := by
      intro hmem
      unfold pilePos at h
      simp only [List.map_append, List.map_cons, List.nodup_append] at h
      have := h.2.1
      simp only [List.nodup_cons] at this
      exact this.1 hmem
    unfold receiveEach
    rw [receive_ok_iff.mpr ⟨hcs, rfl⟩, ebind_ok]
    exact ih h

theorem removeLoop_ok {n : Nat} {p acc cs rest : List Card}
    (h : removeLoop n p acc = .ok (cs, rest)) :
    cs = (p.take n).reverse ++ acc ∧ rest = p.drop n ∧ n ≤ p.length := by
  induction n generalizing p acc with
  | zero => simp [removeLoop] at h; simp [h.1, h.2]
  | succ m ih =>
    unfold removeLoop at h
    cases p with
    | nil => simp [remove] at h
    | cons c prest =>
      simp only [remove, ebind_ok] at h
      obtain ⟨h1, h2, h3⟩ := ih h
      refine ⟨by simp [h1], by simpa using h2, by simpa using h3⟩

theorem removeLoop_run {n : Nat} {p : List Card} (acc : List Card)
    (h : n ≤ p.length) :
    removeLoop n p acc = .ok ((p.take n).reverse ++ acc, p.drop n) := by
  induction n generalizing p acc with
  | zero => simp [removeLoop]
  | succ m ih =>
    cases p with
    | nil => simp at h
    | cons c prest =>
      simp only [removeLoop, remove, ebind_ok]
      rw [ih (c :: acc) (by simpa using h)]
      simp

theorem remove_pile_ok {n : Int} {p q rest : List Card}
    (h : remove_pile n p = .ok (q, rest)) :
    q = p.take n.toNat ∧ rest = p.drop n.toNat ∧ n ≤ (p.length : Int) := by
  unfold remove_pile at h
  by_cases hg : n ≤ (p.length : Int)
  · rw [if_pos hg] at h
    obtain ⟨⟨pile_cards, self2⟩, hrl, h2⟩ := ebind_eq_ok h
    obtain ⟨hc, hs, -⟩ := removeLoop_ok hrl
    obtain ⟨np, hre, h3⟩ := ebind_eq_ok h2
    have hnp := receiveEach_ok hre
    cases h3
    subst hc hs
    exact ⟨by simpa using hnp, rfl, hg⟩
  · rw [if_neg hg] at h
    cases h

theorem remove_pile_run {n : Int} {p : List Card}
    (hn : n ≤ (p.length : Int)) (hnd : (pilePos (p.take n.toNat)).Nodup) :
    remove_pile n p = .ok (p.take n.toNat, p.drop n.toNat) := by
  have hle : n.toNat ≤ p.length := by
    rcases Int.le_total n 0 with h0 | h0
    · simp [Int.toNat_of_nonpos h0]
    · exact_mod_cast Int.toNat_le.mpr hn
  unfold remove_pile
  rw [if_pos hn, removeLoop_run [] hle, ebind_ok]
  rw [receiveEach_run (by simpa using hnd), ebind_ok]
  simp

theorem remove_pile_error {n : Int} {p : List Card} {e : String}
    (h : remove_pile n p = .error e) :
    e = "Cannot take more cards than exist in a Pile" ∨ e = "Card already in Pile" := by
  unfold remove_pile at h
  by_cases hg : n ≤ (p.length : Int)
  · rw [if_pos hg] at h
    have hle : n.toNat ≤ p.length := by
      rcases Int.le_total n 0 with h0 | h0
      · simp [Int.toNat_of_nonpos h0]
      · exact_mod_cast Int.toNat_le.mpr hg
    rw [removeLoop_run [] hle, ebind_ok] at h
    rcases ebind_eq_error h with h1 | ⟨v, -, h2⟩
    · exact Or.inr (receiveEach_error h1)
    · cases h2
  · rw [if_neg hg] at h
    cases h
    exact Or.inl rfl

theorem receive_pile_ok {s p r e : List Card}
    (h : receive_pile s p = .ok (r, e)) : r = p ++ s ∧ e = [] := by
  unfold receive_pile at h
  obtain ⟨r2, hre, h2⟩ := ebind_eq_ok h
  cases h2
  have := receiveEach_ok hre
  rw [drainLoop_eq] at this
  simp at this
  exact ⟨this, rfl⟩

theorem receive_pile_run {s p : List Card}
    (h : (pilePos (p ++ s)).Nodup) :
    receive_pile s p = .ok (p ++ s, []) := by
  unfold receive_pile
  rw [drainLoop_eq]
  simp only [List.append_nil]
  rw [receiveEach_run (by simpa using h), ebind_ok]
  simp

deriving instance DecidableEq for Except

/-! ### Claim C7: receive_pile / remove_pile round trip -/

/-- C7: for every Pile `A` and non-empty Pile `B` of duplicate-free cards
disjoint from `A` (together: the positions of `B ++ A` have no duplicates),
`A.receive_pile(B)` yields `B ++ A` with `B` emptied, and a subsequent
`A.remove_pile(len B)` returns exactly `B` and restores `A`: the round trip
is the identity. -/
theorem receive_remove_roundtrip (A B : List Card) (hB : B ≠ [])
    (hnd : (pilePos (B ++ A)).Nodup) :
    receive_pile A B = .ok (B ++ A, []) ∧
      remove_pile (B.length : Int) (B ++ A) = .ok (B, A) := by
  refine ⟨receive_pile_run hnd, ?_⟩
  have hn : (B.length : Int) ≤ ((B ++ A).length : Int) := by
    simp only [List.length_append]
    exact_mod_cast Nat.le_add_right _ _
  have h1 : ((B.length : Int)).toNat = B.length := Int.toNat_ofNat _
  have h2 : (B ++ A).take B.length = B := List.take_left B A
  have h3 : (B ++ A).drop B.length = A := List.drop_left B A
  have hndB : (pilePos ((B ++ A).take ((B.length : Int)).toNat)).Nodup := by
    rw [h1, h2]
    unfold pilePos at hnd ⊢
    rw [List.map_append, List.nodup_append] at hnd
    exact hnd.1
  have := remove_pile_run hn hndB
  rw [h1, h2, h3] at this
  exact this

/-- Witness for C7 at concrete piles. -/
theorem receive_remove_roundtrip_witness :
    receive_pile [Card.mk 0] [Card.mk 1, Card.mk 2] =
        .ok ([Card.mk 1, Card.mk 2, Card.mk 0], []) ∧
      remove_pile 2 [Card.mk 1, Card.mk 2, Card.mk 0] =
        .ok ([Card.mk 1, Card.mk 2], [Card.mk 0]) :=
  receive_remove_roundtrip [Card.mk 0] [Card.mk 1, Card.mk 2]
    (by decide) (by decide)

/-! ### Claim C10: remove_pile with non-positive count -/

/-- C10: `remove_pile n` with `n <= 0` succeeds, returns an empty new pile
and leaves the source unchanged (Python's `range` over a non-positive count
is empty); and the insufficient-cards error is raised exactly when `n`
strictly exceeds the pile's size. -/
theorem remove_pile_nonpositive (p : List Card) (n : Int) :
    (n ≤ 0 → remove_pile n p = .ok ([], p)) ∧
      (remove_pile n p = .error "Cannot take more cards than exist in a Pile" ↔
        (p.length : Int) < n) := by
  constructor
  · intro hn0
    have hn : n ≤ (p.length : Int) := le_trans hn0 (by exact_mod_cast Nat.zero_le _)
    have h0 : n.toNat = 0 := Int.toNat_of_nonpos hn0
    have := remove_pile_run hn (by rw [h0]; simp [pilePos])
    rw [h0] at this
    simpa using this
  · constructor
    · intro h
      by_contra hgt
      push_neg at hgt
      unfold remove_pile at h
      rw [if_pos hgt] at h
      have hle : n.toNat ≤ p.length := by
        rcases Int.le_total n 0 with h0 | h0
        · simp [Int.toNat_of_nonpos h0]
        · exact_mod_cast Int.toNat_le.mpr hgt
      rw [removeLoop_run [] hle, ebind_ok] at h
      rcases ebind_eq_error h with h2 | ⟨v, -, h2⟩
      · have := receiveEach_error h2
        simp at this
      · cases h2
    · intro h
      unfold remove_pile
      rw [if_neg (by omega)]

/-- Witness for C10 at a concrete pile and count. -/
theorem remove_pile_nonpositive_witness :
    remove_pile (-3) [Card.mk 5] = .ok ([], [Card.mk 5]) :=
  (remove_pile_nonpositive [Card.mk 5] (-3)).1 (by decide)

/-! ### Claim C9: nrank -/

/-- C9 counterexample: the club Ace, `Card(12)`, has `rank() = 14` (it is an
Ace) but `nrank() = 0`, not 1 as the claim states; equally the deuce
`Card(0)` has `nrank() = 1`, not 2.  (The module's own self-test asserts
`cd.nrank() == 0` for this card.) -/
theorem nrank_counterexample :
    (Card.mk 12).rank = 14 ∧ (Card.mk 12).nrank = 0 ∧
      ¬ (Card.mk 12).nrank = 1 ∧ (Card.mk 0).nrank = 1 := by decide

/-- C9 (amended): `nrank()` is Ace-low but zero-based: the Ace of any suit
has nrank 0, the deuce 1, and so on up to the King with nrank 12; i.e. it
is one less than the rank for non-Aces and 0 for Aces. -/
theorem nrank_ace_low (c : Card) :
    (c.rank = 14 → c.nrank = 0) ∧ (c.rank < 14 → c.nrank = c.rank - 1) := by
  have hlt : c.pos % 13 < 13 := Nat.mod_lt _ (by omega)
  unfold Card.rank Card.nrank Card.suitOff
  by_cases h12 : c.pos % 13 < 12
  · rw [if_pos h12]; omega
  · rw [if_neg h12]; omega

/-- Witness for C9's amended statement at the club Ace and club deuce. -/
theorem nrank_ace_low_witness :
    (Card.mk 12).nrank = 0 ∧ (Card.mk 0).nrank = (Card.mk 0).rank - 1 :=
  ⟨(nrank_ace_low (Card.mk 12)).1 (by decide),
   (nrank_ace_low (Card.mk 0)).2 (by decide)⟩

/-! ### Claim C3: foundation play legality -/

/-- C3: for every card and foundation pile (flag 'C' 'D' 'H' or 'S'),
`can_play_to` holds iff the foundation is non-empty, suits agree, and the
card's natural rank is one above the top card's, or the foundation is empty
and the card is the Ace (rank 14) whose suit initial matches the flag.
In particular the Diamond Ace (`Card(25)`) plays onto an empty Diamond
foundation, and the Diamond 3 (`Card(14)`) does not play onto a foundation
topped by the Diamond Ace. -/
theorem can_play_to_foundation (c : Card) (flag : Char) (dest : List Card)
    (hf : flag ∈ Suit.initials) :
    (canPlayTo c flag dest = true ↔
        (∃ t rest, dest = t :: rest ∧ c.suitIdx = t.suitIdx ∧ c.nrank = t.nrank + 1)
        ∨ (dest = [] ∧ c.suitInitial = flag ∧ c.rank = 14)) ∧
      canPlayTo (Card.mk 25) 'D' [] = true ∧
      canPlayTo (Card.mk 14) 'D' [Card.mk 25] = false := by
  have hT : flag ≠ 'T' := by
    unfold Suit.initials at hf
    simp only [List.mem_cons, List.mem_singleton, List.not_mem_nil, or_false] at hf
    rcases hf with rfl | rfl | rfl | rfl <;> decide
  refine ⟨?_, by decide, by decide⟩
  unfold canPlayTo
  rw [if_neg hT]
  cases dest with
  | nil => simp
  | cons t rest => simp

/-- Witness for C3 at the Diamond foundation. -/
theorem can_play_to_foundation_witness :
    canPlayTo (Card.mk 25) 'D' [] = true :=
  (can_play_to_foundation (Card.mk 25) 'D' [] (by decide)).2.1

/-! ### Claim C6: deal order and exhaustion -/

/-- C6: a fresh deck deals the cards at absolute positions 0..51 in order
over 52 calls and the 53rd call fails with the deck-exhausted error; in
general (under the invariant bound `top <= 52`) `deal()` fails iff
`top == 52`, and otherwise returns the card at `access[top]` and
increments `top`. -/
theorem deal_spec (d : Deck) (htop : d.top ≤ 52) :
    Deck.dealSeq 52 Deck.init =
        .ok ((List.range 52).map Card.mk, ⟨List.range 52, 52⟩) ∧
      Deck.dealSeq 53 Deck.init = .error "Cannot deal from empty deck" ∧
      ((∃ e, d.deal = .error e) ↔ d.top = 52) ∧
      (d.top < 52 → d.deal = .ok (⟨d.access.getD d.top 0⟩, ⟨d.access, d.top + 1⟩)) := by
  refine ⟨by decide, by decide, ?_, ?_⟩
  · unfold Deck.deal
    constructor
    · rintro ⟨e, he⟩
      by_contra hne
      rw [if_pos (by omega)] at he
      cases he
    · intro h
      rw [if_neg (by omega)]
      exact ⟨_, rfl⟩
  · intro h
    unfold Deck.deal
    rw [if_pos (by omega)]

/-- Witness for C6 at a fully dealt deck. -/
theorem deal_spec_witness :
    ∃ e, Deck.deal ⟨List.range 52, 52⟩ = Except.error e :=
  (deal_spec ⟨List.range 52, 52⟩ (by decide)).2.2.1.mpr rfl

/-! ### Claim C4: Deck invariant preservation -/

/-- The Deck invariant: the access array is a permutation of the slot
indices 0..51 (no duplicates or omissions) and `top <= 52`; `access[0..top)`
are then the dealt and `access[top..52)` the undealt positions (`0 <= top`
is automatic for a natural number cursor). -/
def DeckInv (d : Deck) : Prop :=
  d.access.Perm (List.range 52) ∧ d.top ≤ 52

/-- C4: every `shuffle`, `cut`, `deal` and `put_back_card` call that
completes without error preserves the Deck invariant.  For `shuffle`, the
reshuffled arrangement delivered by `random.shuffle` is a permutation of the
undealt slice (the modelling hypothesis `hsh`). -/
theorem deck_ops_preserve_inv (d : Deck) (hinv : DeckInv d) :
    (∀ sh d2, sh.Perm (d.access.drop d.top) → Deck.shuffle sh d = .ok d2 →
      DeckInv d2) ∧
    (∀ n m d2, Deck.cut n m d = .ok d2 → DeckInv d2) ∧
    (∀ c d2, Deck.deal d = .ok (c, d2) → DeckInv d2) ∧
    (∀ c d2, Deck.put_back_card c d = .ok d2 → DeckInv d2) := by
  obtain ⟨hperm, htop⟩ := hinv
  refine ⟨?_, ?_, ?_, ?_⟩
  · intro sh d2 hsh h
    unfold Deck.shuffle at h
    by_cases h1 : 51 < d.top
    · rw [if_pos h1] at h; cases h
    · rw [if_neg h1] at h
      by_cases h2 : d.top = 51
      · rw [if_pos h2] at h; cases h; exact ⟨hperm, htop⟩
      · rw [if_neg h2] at h
        cases h
        refine ⟨?_, htop⟩
        have h3 := List.Perm.append_left (d.access.take d.top) hsh
        rw [List.take_append_drop] at h3
        exact h3.trans hperm
  · intro n m d2 h
    unfold Deck.cut at h
    by_cases h1 : d.cards_left < 2 * m
    · rw [if_pos h1] at h; cases h
    · rw [if_neg h1] at h
      by_cases h2 : n < m ∨ d.cards_left - m < n
      · rw [if_pos h2] at h; cases h
      · rw [if_neg h2] at h
        cases h
        refine ⟨?_, htop⟩
        have hd : d.access.drop d.top =
            (d.access.drop d.top).take n ++ d.access.drop (d.top + n) := by
          conv_lhs => rw [← List.take_append_drop n (d.access.drop d.top)]
          rw [List.drop_drop]
        have h4 : ((d.access.drop d.top).take n
            ++ d.access.drop (d.top + n)).Perm (d.access.drop d.top) := by
          rw [← hd]
        have h3 : (d.access.drop (d.top + n)
            ++ (d.access.drop d.top).take n).Perm (d.access.drop d.top) :=
          List.perm_append_comm.trans h4
        have h5 := List.Perm.append_left (d.access.take d.top) h3
        rw [List.take_append_drop] at h5
        rw [List.append_assoc]
        exact h5.trans hperm
  · intro c d2 h
    unfold Deck.deal at h
    by_cases h1 : d.top ≤ 51
    · rw [if_pos h1] at h
      cases h
      exact ⟨hperm, by show d.top + 1 ≤ 52; omega⟩
    · rw [if_neg h1] at h; cases h
  · intro c d2 h
    unfold Deck.put_back_card at h
    by_cases h1 : c.pos ∈ d.access.drop d.top
    · rw [if_pos h1] at h; cases h
    · rw [if_neg h1] at h
      by_cases h2 : c.pos ∈ d.access
      · rw [if_pos h2] at h
        cases h
        have h3 : (d.access.erase c.pos ++ [c.pos]).Perm d.access :=
          (List.perm_append_singleton _ _).trans (List.perm_cons_erase h2).symm
        exact ⟨h3.trans hperm, by show d.top - 1 ≤ 52; omega⟩
      · rw [if_neg h2] at h; cases h

/-- Witness for C4: shuffling a fresh deck with the reversed order. -/
theorem deck_ops_preserve_inv_witness :
    DeckInv { access := (List.range 52).reverse, top := 0 } :=
  (deck_ops_preserve_inv Deck.init ⟨List.Perm.refl _, by decide⟩).1
    ((List.range 52).reverse)
    { access := (List.range 52).reverse, top := 0 }
    (List.reverse_perm _) rfl

/-! ### Turning the deck: put-back and deal-to-pack characterizations -/

theorem put_back_card_run {c : Card} {d : Deck}
    (hmem : c.pos ∈ d.access) (hund : c.pos ∉ d.access.drop d.top) :
    d.put_back_card c = .ok ⟨d.access.erase c.pos ++ [c.pos], d.top - 1⟩ := by
  unfold Deck.put_back_card
  rw [if_neg hund, if_pos hmem]

/-- On every success path of `put_back_card` the cursor is positive, the new
access array is a permutation of the old, and the undealt slice gains the
returned slot-index at its end. -/
theorem put_back_card_accounting {c : Card} {d : Deck}
    (hndA : d.access.Nodup) (htop : d.top ≤ d.access.length)
    (hmem : c.pos ∈ d.access) (hund : c.pos ∉ d.access.drop d.top) :
    1 ≤ d.top ∧
      (d.access.erase c.pos ++ [c.pos]).Perm d.access ∧
      (d.access.erase c.pos ++ [c.pos]).length = d.access.length ∧
      (d.access.erase c.pos ++ [c.pos]).drop (d.top - 1) =
        d.access.drop d.top ++ [c.pos] := by
  have htake : c.pos ∈ d.access.take d.top := by
    have hsplit : c.pos ∈ d.access.take d.top ++ d.access.drop d.top := by
      rw [List.take_append_drop]; exact hmem
    rcases List.mem_append.mp hsplit with h | h
    · exact h
    · exact absurd h hund
  have h1 : 1 ≤ d.top := by
    by_contra h0
    push_neg at h0
    have : d.top = 0 := by omega
    rw [this] at htake
    simp at htake
  have hperm2 : (d.access.erase c.pos ++ [c.pos]).Perm d.access :=
    (List.perm_append_singleton _ _).trans (List.perm_cons_erase hmem).symm
  have herase : d.access.erase c.pos =
      (d.access.take d.top).erase c.pos ++ d.access.drop d.top := by
    conv_lhs => rw [← List.take_append_drop d.top d.access]
    exact List.erase_append_left _ htake
  have hlen2 : ((d.access.take d.top).erase c.pos).length = d.top - 1 := by
    rw [List.length_erase_of_mem htake, List.length_take]
    omega
  refine ⟨h1, hperm2, hperm2.length_eq, ?_⟩
  rw [herase, List.append_assoc, ← hlen2]
  exact List.drop_left _ _

/-- Running `put_back_pile` on duplicate-free cards that all belong to the
deck and are all dealt: it succeeds, empties the pile, moves the cursor back
by the pile size, and appends the pile's positions (in pile order, top
first) to the end of the undealt slice. -/
theorem put_back_pile_run (cards : List Card) (d : Deck)
    (hnd : (pilePos cards).Nodup) (hndA : d.access.Nodup)
    (htop : d.top ≤ d.access.length)
    (hmem : ∀ c ∈ cards, c.pos ∈ d.access)
    (hund : ∀ c ∈ cards, c.pos ∉ d.access.drop d.top) :
    ∃ a2, Deck.put_back_pile cards d = .ok (⟨a2, d.top - cards.length⟩, []) ∧
      a2.Perm d.access ∧ cards.length ≤ d.top ∧
      a2.drop (d.top - cards.length) = d.access.drop d.top ++ pilePos cards := by
  induction cards generalizing d with
  | nil =>
    refine ⟨d.access, ?_, List.Perm.refl _, by simp, by simp [pilePos]⟩
    show Deck.put_back_pile [] d = _
    simp [Deck.put_back_pile]
  | cons c rest ih =>
    have hmemc := hmem c (by simp)
    have hundc := hund c (by simp)
    obtain ⟨h1, hperm2, hlen2, hdrop2⟩ :=
      put_back_card_accounting hndA htop hmemc hundc
    have hndrest : (pilePos rest).Nodup := by
      unfold pilePos at hnd ⊢
      simp only [List.map_cons, List.nodup_cons] at hnd
      exact hnd.2
    have hcrest : c.pos ∉ pilePos rest := by
      unfold pilePos at hnd
      simp only [List.map_cons, List.nodup_cons] at hnd
      exact fun hx => hnd.1 hx
    obtain ⟨a2, hrun, hperm3, hlen3, hdrop3⟩ :=
      ih ⟨d.access.erase c.pos ++ [c.pos], d.top - 1⟩ hndrest
        (hperm2.nodup_iff.mpr hndA)
        (by show d.top - 1 ≤ (d.access.erase c.pos ++ [c.pos]).length
            rw [hlen2]; omega)
        (fun c2 hc2 => by
          show c2.pos ∈ d.access.erase c.pos ++ [c.pos]
          exact hperm2.mem_iff.mpr (hmem c2 (by simp [hc2])))
        (fun c2 hc2 => by
          show c2.pos ∉ (d.access.erase c.pos ++ [c.pos]).drop (d.top - 1)
          rw [hdrop2, List.mem_append]
          rintro (hx | hx)
          · exact hund c2 (by simp [hc2]) hx
          · simp only [List.mem_singleton] at hx
            have hmm : c2.pos ∈ pilePos rest := List.mem_map_of_mem Card.pos hc2
            rw [hx] at hmm
            exact hcrest hmm)
    have hrun2 : Deck.put_back_pile rest ⟨d.access.erase c.pos ++ [c.pos], d.top - 1⟩
        = .ok (⟨a2, d.top - 1 - rest.length⟩, []) := hrun
    have hperm4 : a2.Perm (d.access.erase c.pos ++ [c.pos]) := hperm3
    have hlen4 : rest.length ≤ d.top - 1 := hlen3
    have hdrop4 : a2.drop (d.top - 1 - rest.length) =
        (d.access.erase c.pos ++ [c.pos]).drop (d.top - 1) ++ pilePos rest := hdrop3
    have heq : d.top - 1 - rest.length = d.top - (c :: rest).length := by
      simp only [List.length_cons]; omega
    refine ⟨a2, ?_, hperm4.trans hperm2, ?_, ?_⟩
    · show Deck.put_back_pile (c :: rest) d = _
      simp only [Deck.put_back_pile]
      rw [put_back_card_run hmemc hundc, ebind_ok, hrun2, heq]
    · show (c :: rest).length ≤ d.top
      simp only [List.length_cons]
      omega
    · rw [← heq, hdrop4, hdrop2, List.append_assoc]
      rfl

/-- Running the deal-to-pack loop for `k` steps when `k` cards are available
(`top + k` within both the access array and the 52-card bound), the next `k`
undealt positions are duplicate-free, and none of them already sits in the
pack: the loop succeeds, advances the cursor by `k`, and stacks the dealt
cards on the pack most-recent-first. -/
theorem dealToPackLoop_run (k : Nat) (g : Klondike)
    (hk : g.deck.top + k ≤ g.deck.access.length) (hk52 : g.deck.top + k ≤ 52)
    (hnd : ((g.deck.access.drop g.deck.top).take k).Nodup)
    (hdisj : ∀ q ∈ (g.deck.access.drop g.deck.top).take k, q ∉ pilePos g.pack) :
    dealToPackLoop k g = .ok { g with
      deck := ⟨g.deck.access, g.deck.top + k⟩,
      pack := (((g.deck.access.drop g.deck.top).take k).reverse).map Card.mk
                ++ g.pack } := by
  induction k generalizing g with
  | zero =>
    simp only [dealToPackLoop, List.take_zero, List.reverse_nil, List.map_nil,
      List.nil_append, Nat.add_zero]
  | succ m ih =>
    have htoplt : g.deck.top < g.deck.access.length := by omega
    have hdeal : g.deck.deal =
        .ok (⟨g.deck.access[g.deck.top]⟩, ⟨g.deck.access, g.deck.top + 1⟩) := by
      unfold Deck.deal
      rw [if_pos (by omega), List.getD_eq_getElem _ _ htoplt]
    have hdropcons : g.deck.access.drop g.deck.top =
        g.deck.access[g.deck.top] :: g.deck.access.drop (g.deck.top + 1) :=
      List.drop_eq_getElem_cons htoplt
    have htake : (g.deck.access.drop g.deck.top).take (m + 1) =
        g.deck.access[g.deck.top] :: (g.deck.access.drop (g.deck.top + 1)).take m := by
      rw [hdropcons, List.take_succ_cons]
    have hheadmem : g.deck.access[g.deck.top]
        ∈ (g.deck.access.drop g.deck.top).take (m + 1) := by
      rw [htake]; simp
    have hrecv : receive g.pack ⟨g.deck.access[g.deck.top]⟩ =
        .ok (⟨g.deck.access[g.deck.top]⟩ :: g.pack) :=
      receive_ok_iff.mpr ⟨hdisj _ hheadmem, rfl⟩
    have hndtail : ((g.deck.access.drop (g.deck.top + 1)).take m).Nodup := by
      rw [htake] at hnd
      exact (List.nodup_cons.mp hnd).2
    have hheadnotin : g.deck.access[g.deck.top]
        ∉ (g.deck.access.drop (g.deck.top + 1)).take m := by
      rw [htake] at hnd
      exact (List.nodup_cons.mp hnd).1
    have hih := ih { g with deck := ⟨g.deck.access, g.deck.top + 1⟩, pack := ⟨g.deck.access[g.deck.top]⟩ :: g.pack }
      (by show g.deck.top + 1 + m ≤ g.deck.access.length; omega)
      (by show g.deck.top + 1 + m ≤ 52; omega)
      (by show ((g.deck.access.drop (g.deck.top + 1)).take m).Nodup
          exact hndtail)
      (by intro q hq
          show q ∉ pilePos (⟨g.deck.access[g.deck.top]⟩ :: g.pack)
          unfold pilePos
          simp only [List.map_cons, List.mem_cons, not_or]
          constructor
          · intro hx
            rw [hx] at hq
            exact hheadnotin hq
          · exact hdisj q (by
              rw [htake]
              exact List.mem_cons_of_mem _ hq))
    show dealToPackLoop (m + 1) g = _
    simp only [dealToPackLoop]
    rw [hdeal, ebind_ok, hrecv, ebind_ok, hih]
    have hpack : (((g.deck.access.drop (g.deck.top + 1)).take m).reverse).map Card.mk
          ++ ⟨g.deck.access[g.deck.top]⟩ :: g.pack =
        (((g.deck.access.drop g.deck.top).take (m + 1)).reverse).map Card.mk
          ++ g.pack := by
      rw [htake]
      simp
    have htop2 : g.deck.top + 1 + m = g.deck.top + (m + 1) := by omega
    rw [hpack, htop2]

/-! ### Claim C1: turn_the_deck on an exhausted deck -/

/-- A game state with the deck fully dealt (52 cards out), one card in the
pack, and the remaining 51 cards in the first tableau column. -/
def exhaustedPackState : Klondike :=
  { aces := [[], [], [], []],
    tableau := [(List.range 51).map (fun n => Card.mk (n + 1)), [], [], [], [], [], []],
    deck := { access := List.range 52, top := 52 },
    pack := [Card.mk 0],
    faceup_count := [1, 1, 1, 1, 1, 1, 1] }

/-- C1 counterexample: on this exhausted-deck, non-empty-pack state,
`turn_the_deck()` does NOT leave the pack empty and does deal during the
same call: the single returned card is immediately dealt back, so the pack
again holds `Card(0)` afterwards (the code falls through from the put-back
to the deal loop). -/
theorem turn_the_deck_counterexample :
    exhaustedPackState.deck.cards_left = 0 ∧
      exhaustedPackState.pack ≠ [] ∧
      Except.map Klondike.pack (turn_the_deck exhaustedPackState) =
        .ok [Card.mk 0] := by decide

/-- C1 (amended): on an exhausted deck (cursor at the end of a 52-permutation
access array) with a non-empty, duplicate-free pack of `n` cards drawn from
the deck, `turn_the_deck` hands all `n` cards back to the deck in restored
deal order and then, in the same call, deals `min 3 n` of them back onto the
pack.  Afterwards the pack holds exactly those first `min 3 n` restored
cards (most recently dealt on top, i.e. the reverse of the first `min 3 n`
restored positions), and the deck's undealt portion is the remaining
`n - min 3 n` positions, still in restored deal order; foundations and
tableau are untouched. -/
theorem turn_the_deck_exhausted (g : Klondike)
    (hperm : g.deck.access.Perm (List.range 52)) (htop : g.deck.top ≤ 52)
    (hexh : g.deck.cards_left = 0) (hpack : g.pack ≠ [])
    (hnd : (pilePos g.pack).Nodup)
    (hmem : ∀ c ∈ g.pack, c.pos ∈ g.deck.access) :
    ∃ g2, turn_the_deck g = .ok g2 ∧
      g2.aces = g.aces ∧ g2.tableau = g.tableau ∧
      g2.pack =
        (((pilePos g.pack.reverse).take (min 3 g.pack.length)).reverse).map Card.mk ∧
      g2.deck.access.drop g2.deck.top =
        (pilePos g.pack.reverse).drop (min 3 g.pack.length) ∧
      g2.deck.cards_left = g.pack.length - min 3 g.pack.length := by
  have hlen : g.deck.access.length = 52 := by
    rw [hperm.length_eq, List.length_range]
  have htop52 : g.deck.top = 52 := by
    unfold Deck.cards_left at hexh; omega
  have hndA : g.deck.access.Nodup := hperm.nodup_iff.mpr (List.nodup_range 52)
  have hrev_nd : (pilePos (turn_over g.pack)).Nodup := by
    unfold turn_over pilePos
    rw [List.map_reverse]
    exact List.nodup_reverse.mpr hnd
  have hdropnil : g.deck.access.drop g.deck.top = [] := by
    rw [htop52, ← hlen, List.drop_length]
  have hundall : ∀ c ∈ turn_over g.pack, c.pos ∉ g.deck.access.drop g.deck.top := by
    intro c hc
    rw [hdropnil]
    simp
  have hmemall : ∀ c ∈ turn_over g.pack, c.pos ∈ g.deck.access := by
    intro c hc
    unfold turn_over at hc
    exact hmem c (List.mem_reverse.mp hc)
  obtain ⟨a2, hput, hpermA, hlenle, hdropA⟩ :=
    put_back_pile_run (turn_over g.pack) g.deck hrev_nd hndA (by omega) hmemall hundall
  have hrevlen : (turn_over g.pack).length = g.pack.length := by
    unfold turn_over; simp
  have hn52 : g.pack.length ≤ 52 := by
    rw [← hrevlen, ← htop52]; exact hlenle
  have hsub : g.deck.top - (turn_over g.pack).length = 52 - g.pack.length := by
    rw [htop52, hrevlen]
  have ha2len : a2.length = 52 := by rw [hpermA.length_eq, hlen]
  have hdropA2 : a2.drop (52 - g.pack.length) = pilePos (turn_over g.pack) := by
    rw [← hsub, hdropA, hdropnil, List.nil_append]
  have hput2 : Deck.put_back_pile (turn_over g.pack) g.deck =
      .ok (⟨a2, 52 - g.pack.length⟩, []) := by rw [hput, hsub]
  have hclmid : Deck.cards_left ⟨a2, 52 - g.pack.length⟩ = g.pack.length := by
    unfold Deck.cards_left
    rw [ha2len]
    show 52 - (52 - g.pack.length) = g.pack.length
    omega
  have hk := min_le_right 3 g.pack.length
  have hrun := dealToPackLoop_run (min 3 g.pack.length)
    { g with deck := ⟨a2, 52 - g.pack.length⟩, pack := [] }
    (by show 52 - g.pack.length + min 3 g.pack.length ≤ a2.length
        rw [ha2len]; omega)
    (by show 52 - g.pack.length + min 3 g.pack.length ≤ 52; omega)
    (by show ((a2.drop (52 - g.pack.length)).take (min 3 g.pack.length)).Nodup
        rw [hdropA2]
        exact (List.take_sublist _ _).nodup hrev_nd)
    (by intro q hq
        show q ∉ pilePos []
        simp [pilePos])
  have hturn : turn_the_deck g = .ok { g with
      deck := ⟨a2, 52 - g.pack.length + min 3 g.pack.length⟩,
      pack := (((a2.drop (52 - g.pack.length)).take (min 3 g.pack.length)).reverse).map Card.mk ++ [] } := by
    unfold turn_the_deck
    rw [if_pos hexh, if_pos (by rw [Ne, List.length_eq_zero]; exact hpack)]
    rw [hput2, ebind_ok]
    show dealToPackLoop (min 3 (Deck.cards_left ⟨a2, 52 - g.pack.length⟩))
        { g with deck := ⟨a2, 52 - g.pack.length⟩, pack := [] } = _
    rw [hclmid]
    exact hrun
  refine ⟨_, hturn, rfl, rfl, ?_, ?_, ?_⟩
  · show (((a2.drop (52 - g.pack.length)).take (min 3 g.pack.length)).reverse).map Card.mk ++ [] = _
    rw [hdropA2, List.append_nil]
    rfl
  · show a2.drop (52 - g.pack.length + min 3 g.pack.length) = _
    rw [← List.drop_drop, hdropA2]
    rfl
  · show a2.length - (52 - g.pack.length + min 3 g.pack.length) = _
    rw [ha2len]
    omega

/-- A second exhausted-deck state, with a four-card pack. -/
def exhaustedPackState4 : Klondike :=
  { aces := [[], [], [], []],
    tableau := [(List.range 48).map (fun n => Card.mk (n + 4)), [], [], [], [], [], []],
    deck := { access := List.range 52, top := 52 },
    pack := [Card.mk 3, Card.mk 2, Card.mk 1, Card.mk 0],
    faceup_count := [1, 1, 1, 1, 1, 1, 1] }

/-- Witness for C1's amended statement on the four-card pack state. -/
theorem turn_the_deck_exhausted_witness :
    ∃ g2, turn_the_deck exhaustedPackState4 = .ok g2 ∧
      g2.aces = exhaustedPackState4.aces ∧
      g2.tableau = exhaustedPackState4.tableau ∧
      g2.pack =
        (((pilePos exhaustedPackState4.pack.reverse).take
            (min 3 exhaustedPackState4.pack.length)).reverse).map Card.mk ∧
      g2.deck.access.drop g2.deck.top =
        (pilePos exhaustedPackState4.pack.reverse).drop
          (min 3 exhaustedPackState4.pack.length) ∧
      g2.deck.cards_left =
        exhaustedPackState4.pack.length - min 3 exhaustedPackState4.pack.length :=
  turn_the_deck_exhausted exhaustedPackState4 (List.Perm.refl _) (by decide)
    (by decide) (by decide) (by decide) (by decide)

/-! ### Claims C8 and C5: the initial deal -/

/-- Pointwise characterization of the inner tableau-deal loop: on success it
advances the deck cursor by `k` and pushes one dealt card (the one at offset
`q - p` past the cursor) onto each of the columns `p .. p+k-1`. -/
theorem dealInner_ok {k p : Nat} {d : Deck} {t : List (List Card)}
    {d2 : Deck} {t2 : List (List Card)}
    (h : dealInner k p d t = .ok (d2, t2)) (hpk : p + k ≤ t.length) :
    d2.access = d.access ∧ d2.top = d.top + k ∧ t2.length = t.length ∧
      ∀ q, t2.getD q [] =
        if p ≤ q ∧ q < p + k
        then Card.mk (d.access.getD (d.top + (q - p)) 0) :: t.getD q []
        else t.getD q [] := by
  induction k generalizing p d t with
  | zero =>
    simp only [dealInner] at h
    cases h
    refine ⟨rfl, by omega, rfl, ?_⟩
    intro q
    rw [if_neg (by omega)]
  | succ m ih =>
    unfold dealInner at h
    obtain ⟨⟨c, dmid⟩, hdeal, h2⟩ := ebind_eq_ok h
    obtain ⟨col, hrecv, h3⟩ := ebind_eq_ok h2
    unfold Deck.deal at hdeal
    by_cases htop : d.top ≤ 51
    swap
    · rw [if_neg htop] at hdeal; cases hdeal
    rw [if_pos htop] at hdeal
    cases hdeal
    obtain ⟨-, rfl⟩ := receive_ok_iff.mp hrecv
    have hplt : p < t.length := by omega
    obtain ⟨ha, htp, hlen, hq⟩ := ih h3 (by rw [List.length_set]; omega)
    refine ⟨ha, ?_, by rwa [List.length_set] at hlen, ?_⟩
    · rw [htp]
      show d.top + 1 + m = d.top + (m + 1)
      omega
    · intro q
      rw [hq q]
      by_cases hqp : q = p
      · subst hqp
        rw [if_neg (by omega), if_pos (by omega),
          getD_set_self _ _ _ _ hplt]
        simp
      · rw [getD_set_ne _ _ _ (Ne.symm hqp)]
        by_cases hin : p + 1 ≤ q ∧ q < p + 1 + m
        · rw [if_pos hin, if_pos (by omega)]
          show Card.mk (d.access.getD (d.top + 1 + (q - (p + 1))) 0) :: t.getD q []
            = Card.mk (d.access.getD (d.top + (q - p)) 0) :: t.getD q []
          have harith : d.top + 1 + (q - (p + 1)) = d.top + (q - p) := by omega
          rw [harith]
        · rw [if_neg hin, if_neg (by omega)]

/-- On success of the outer deal loop with passes `j .. j+k-1 = 6`, every
column `q < 7` gains `q + 1 - j` cards. -/
theorem dealOuter_len {k j : Nat} {d : Deck} {t : List (List Card)}
    {d2 : Deck} {t2 : List (List Card)}
    (h : dealOuter k j d t = .ok (d2, t2)) (hjk : j + k = 7) (hlen : t.length = 7) :
    t2.length = 7 ∧
      ∀ q, q < 7 →
        (t2.getD q []).length = (t.getD q []).length + (q + 1 - j) := by
  induction k generalizing j d t with
  | zero =>
    simp only [dealOuter] at h
    cases h
    refine ⟨hlen, ?_⟩
    intro q hq
    have : q + 1 - j = 0 := by omega
    rw [this]
    omega
  | succ m ih =>
    unfold dealOuter at h
    obtain ⟨⟨dmid, tmid⟩, hinner, hrest⟩ := ebind_eq_ok h
    obtain ⟨-, -, hmlen, hmq⟩ := dealInner_ok hinner (by omega)
    obtain ⟨hlen2, hq2⟩ := ih hrest (by omega) (by rw [hmlen, hlen])
    refine ⟨hlen2, ?_⟩
    intro q hq
    rw [hq2 q hq, hmq q]
    by_cases hjq : j ≤ q
    · rw [if_pos (by omega)]
      simp only [List.length_cons]
      omega
    · rw [if_neg (by omega)]
      omega

/-- What a successful `newGame` looks like: empty foundations and pack, all
face-up counts 1, seven tableau columns with column `q` holding `q + 1`
cards. -/
theorem newGame_ok {shuffled : List Nat} {g : Klondike}
    (h : newGame shuffled = .ok g) :
    g.aces = [[], [], [], []] ∧ g.pack = [] ∧
      g.faceup_count = List.replicate 7 1 ∧ g.tableau.length = 7 ∧
      ∀ q, q < 7 → (g.tableau.getD q []).length = q + 1 := by
  unfold newGame at h
  have hsh : Deck.init.shuffle shuffled = .ok ⟨shuffled, 0⟩ := rfl
  rw [hsh, ebind_ok] at h
  obtain ⟨⟨d1, tab⟩, hdeal, hfin⟩ := ebind_eq_ok h
  cases hfin
  obtain ⟨hlen, hcols⟩ := dealOuter_len hdeal (by omega) (by simp)
  refine ⟨rfl, rfl, rfl, hlen, ?_⟩
  intro q hq
  rw [hcols q hq]
  have hrep : (List.replicate 7 ([] : List Card)).getD q [] = [] := by
    rw [List.getD_eq_getElem?_getD, List.getElem?_replicate]
    split <;> rfl
  rw [hrep]
  simp

/-- C8 counterexample: with the identity shuffle, `newGame` gives the first
tableau column 1 card (and in general column `i` gets `i + 1`), not
`7 - i` as the claim's formula states — neither 7 (0-indexed) nor 6
(1-indexed) matches the actual 1. -/
theorem newGame_counterexample :
    Except.map (fun g => (g.tableau.map List.length, g.faceup_count))
        (newGame (List.range 52)) =
      .ok ([1, 2, 3, 4, 5, 6, 7], [1, 1, 1, 1, 1, 1, 1]) ∧
      (1 : Nat) ≠ 7 - 0 ∧ (1 : Nat) ≠ 7 - 1 := by
  refine ⟨?_, by decide, by decide⟩
  decide

/-- C8 (amended): after `newGame`, the cards are dealt triangularly with
0-indexed column `i` receiving `i + 1` cards (pass `j` deals one card to
every column `p >= j`), and every column's face-up count is 1. -/
theorem newGame_triangular (shuffled : List Nat) (g : Klondike)
    (h : newGame shuffled = .ok g) :
    g.tableau.length = 7 ∧
      (∀ q, q < 7 → (g.tableau.getD q []).length = q + 1) ∧
      g.faceup_count = List.replicate 7 1 := by
  obtain ⟨-, -, hface, hlen, hcols⟩ := newGame_ok h
  exact ⟨hlen, hcols, hface⟩

/-- The game state `newGame` produces from the identity shuffle. -/
def newGameState : Klondike :=
  { aces := [[], [], [], []],
    tableau := [[Card.mk 0], [Card.mk 7, Card.mk 1], [Card.mk 13, Card.mk 8, Card.mk 2],
      [Card.mk 18, Card.mk 14, Card.mk 9, Card.mk 3],
      [Card.mk 22, Card.mk 19, Card.mk 15, Card.mk 10, Card.mk 4],
      [Card.mk 25, Card.mk 23, Card.mk 20, Card.mk 16, Card.mk 11, Card.mk 5],
      [Card.mk 27, Card.mk 26, Card.mk 24, Card.mk 21, Card.mk 17, Card.mk 12, Card.mk 6]],
    deck := ⟨List.range 52, 28⟩,
    pack := [],
    faceup_count := List.replicate 7 1 }

/-- Witness for C8's amended statement on the identity-shuffle game. -/
theorem newGame_triangular_witness :
    newGameState.tableau.length = 7 ∧
      (∀ q, q < 7 → (newGameState.tableau.getD q []).length = q + 1) ∧
      newGameState.faceup_count = List.replicate 7 1 :=
  newGame_triangular (List.range 52) newGameState (by decide)

/-! ### Claim C2: face-up bookkeeping of move -/

theorem singleMove_ok {flag : Char} {dp sp src2 dst2 : List Card} {n : Int}
    (h : singleMove flag dp sp = .ok (src2, dst2, n)) :
    ∃ c rest, sp = c :: rest ∧ src2 = rest ∧ dst2 = c :: dp ∧ n = 1 := by
  cases sp with
  | nil => simp [singleMove] at h
  | cons c rest =>
    refine ⟨c, rest, rfl, ?_⟩
    simp only [singleMove] at h
    split at h
    · obtain ⟨d2, hrc, hfin⟩ := ebind_eq_ok h
      obtain ⟨-, rfl⟩ := receive_ok_iff.mp hrc
      cases hfin
      exact ⟨rfl, rfl, rfl⟩
    · cases h

/-- What a successful transfer branch of `move` does to the two piles: it
moves `n >= 1` cards (the whole face-up run, or the single top card) from
source to destination, preserving the combined contents as a permutation. -/
theorem moveBranch_ok {g : Klondike} {src : Src} {dst : Dst}
    {sp dp src2 dst2 : List Card} {n : Int}
    (h : moveBranch g src dst sp dp = .ok (src2, dst2, n))
    (hfc : ∀ i : Fin 7, src = Src.tab i → 1 ≤ g.faceup_count.getD i 0) :
    1 ≤ n ∧ (src2.length : Int) = (sp.length : Int) - n ∧
      (dst2.length : Int) = (dp.length : Int) + n ∧
      (src2 ++ dst2).Perm (sp ++ dp) := by
  have hsingle : ∀ (flag : Char),
      singleMove flag dp sp = .ok (src2, dst2, n) →
      1 ≤ n ∧ (src2.length : Int) = (sp.length : Int) - n ∧
        (dst2.length : Int) = (dp.length : Int) + n ∧
        (src2 ++ dst2).Perm (sp ++ dp) := by
    intro flag hh
    obtain ⟨c, rest, rfl, rfl, rfl, rfl⟩ := singleMove_ok hh
    refine ⟨by omega, ?_, ?_, ?_⟩
    · simp only [List.length_cons]
      push_cast
      omega
    · simp only [List.length_cons]
      push_cast
      omega
    · simpa using List.perm_middle
  cases src with
  | pack =>
    cases dst with
    | found fi => exact hsingle _ (by simpa only [moveBranch] using h)
    | tab j => exact hsingle _ (by simpa only [moveBranch] using h)
  | tab i =>
    cases dst with
    | found fi => exact hsingle _ (by simpa only [moveBranch] using h)
    | tab j =>
      simp only [moveBranch] at h
      split at h
      · cases h
      · rename_i hc heq
        split at h
        · obtain ⟨⟨run, srem⟩, hrp, h2⟩ := ebind_eq_ok h
          obtain ⟨hrun, hsrem, hle⟩ := remove_pile_ok hrp
          obtain ⟨⟨d2, e2⟩, hrcv, h3⟩ := ebind_eq_ok h2
          obtain ⟨hd2, -⟩ := receive_pile_ok hrcv
          cases h3
          have h1 : 1 ≤ g.faceup_count.getD i 0 := hfc i rfl
          have h0 : (0 : Int) ≤ g.faceup_count.getD i 0 := by omega
          have hcast : ((g.faceup_count.getD i 0).toNat : Int) =
              g.faceup_count.getD i 0 := Int.toNat_of_nonneg h0
          have hlenn : (g.faceup_count.getD i 0).toNat ≤ sp.length := by omega
          subst hrun hsrem hd2
          refine ⟨h1, ?_, ?_, ?_⟩
          · rw [List.length_drop]
            omega
          · rw [List.length_append, List.length_take]
            push_cast
            omega
          · have hp1 : ((sp.drop (g.faceup_count.getD i 0).toNat
                ++ sp.take (g.faceup_count.getD i 0).toNat) ++ dp).Perm
                ((sp.take (g.faceup_count.getD i 0).toNat
                ++ sp.drop (g.faceup_count.getD i 0).toNat) ++ dp) :=
              List.Perm.append_right dp List.perm_append_comm
            rw [List.take_append_drop] at hp1
            rw [← List.append_assoc]
            exact hp1
        · exact hsingle _ h

/-- C2: for every successful `move` from a well-formed state (seven tableau
columns, seven face-up counts, the source column's face-up count between 1
and its size), writing `k` for the number of cards that left the source
pile: a tableau destination grows by `k` cards and its face-up count
increases by exactly `k`; a tableau source's face-up count decreases by
exactly `k`, except that when it thereby reaches zero while the shortened
source column still has cards it is reset to 1 (revealing the new top
card). -/
theorem move_faceup_bookkeeping (g g2 : Klondike) (src : Src) (dst : Dst)
    (hlen : g.tableau.length = 7) (hface : g.faceup_count.length = 7)
    (hwf : ∀ i : Fin 7, src = Src.tab i →
      1 ≤ g.faceup_count.getD i 0 ∧
        g.faceup_count.getD i 0 ≤ ((g.tableau.getD i []).length : Int))
    (hmv : move g src dst = .ok g2) :
    (∀ j : Fin 7, dst = Dst.tab j →
      ((destPile g2 dst).length : Int) = (destPile g dst).length
          + (((sourcePile g src).length : Int) - (sourcePile g2 src).length) ∧
        g2.faceup_count.getD j 0 = g.faceup_count.getD j 0
          + (((sourcePile g src).length : Int) - (sourcePile g2 src).length)) ∧
    (∀ i : Fin 7, src = Src.tab i →
      (sourcePile g2 src).length ≤ (sourcePile g src).length ∧
        g2.faceup_count.getD i 0 =
          if g.faceup_count.getD i 0
                - (((sourcePile g src).length : Int) - (sourcePile g2 src).length) = 0
              ∧ (sourcePile g2 src).length ≠ 0
          then 1
          else g.faceup_count.getD i 0
              - (((sourcePile g src).length : Int) - (sourcePile g2 src).length)) := by
  unfold move at hmv
  by_cases h0 : (sourcePile g src).length = 0
  · rw [if_pos h0] at hmv; cases hmv
  rw [if_neg h0] at hmv
  by_cases hsame : samePile src dst = true
  · rw [if_pos hsame] at hmv; cases hmv
  rw [if_neg hsame] at hmv
  obtain ⟨⟨src2, dst2, n⟩, hbr, hfin⟩ := ebind_eq_ok hmv
  obtain ⟨hn1, hsl, hdl, -⟩ := moveBranch_ok hbr (fun i hi => (hwf i hi).1)
  have hg2 := Except.ok.inj hfin
  cases src with
  | pack =>
    have hs2 : sourcePile g2 Src.pack = src2 := by
      rw [← hg2]
      cases dst <;> rfl
    cases dst with
    | found fi =>
      constructor
      · intro j hj; cases hj
      · intro i hi; cases hi
    | tab j =>
      have hj7f : (j : Nat) < g.faceup_count.length := by rw [hface]; exact j.isLt
      have hj7t : (j : Nat) < g.tableau.length := by rw [hlen]; exact j.isLt
      have hd2 : destPile g2 (Dst.tab j) = dst2 := by
        rw [← hg2]
        show ((g.tableau.set j dst2).getD j []) = dst2
        exact getD_set_self _ _ _ _ hj7t
      have hfj : g2.faceup_count.getD j 0 = g.faceup_count.getD j 0 + n := by
        rw [← hg2]
        show (g.faceup_count.set j (g.faceup_count.getD j 0 + n)).getD j 0 = _
        exact getD_set_self _ _ _ _ hj7f
      refine ⟨?_, fun i hi => by cases hi⟩
      intro j2 hj2
      cases hj2
      rw [hs2, hd2, hfj]
      constructor
      · omega
      · omega
  | tab i =>
    have hi7f : (i : Nat) < g.faceup_count.length := by rw [hface]; exact i.isLt
    have hi7t : (i : Nat) < g.tableau.length := by rw [hlen]; exact i.isLt
    have hwfi := hwf i rfl
    cases dst with
    | found fi =>
      have hs2 : sourcePile g2 (Src.tab i) = src2 := by
        rw [← hg2]
        simp only [sourcePile, dropSourceFaceup, bumpDestFaceup, setDest, setSource]
        split
        · exact getD_set_self _ _ _ _ hi7t
        · exact getD_set_self _ _ _ _ hi7t
      have hfi : g2.faceup_count.getD i 0 =
          if g.faceup_count.getD i 0 - n = 0 ∧ src2.length ≠ 0
          then 1 else g.faceup_count.getD i 0 - n := by
        rw [← hg2]
        simp only [dropSourceFaceup, bumpDestFaceup, setDest, setSource]
        rw [getD_set_self _ _ _ _ hi7f]
        by_cases hcond : g.faceup_count.getD i 0 - n = 0 ∧ src2.length ≠ 0
        · rw [if_pos hcond, if_pos hcond]
          exact getD_set_self _ _ _ _ (by rw [List.length_set]; exact hi7f)
        · rw [if_neg hcond, if_neg hcond]
          exact getD_set_self _ _ _ _ hi7f
      constructor
      · intro j hj; cases hj
      intro i2 hi2
      cases hi2
      rw [hs2, hfi]
      have hklen : ((sourcePile g (Src.tab i)).length : Int) - (src2.length : Int) = n := by
        omega
      rw [hklen]
      constructor
      · omega
      · rfl
    | tab j =>
      have hij : (i : Nat) ≠ (j : Nat) := by
        intro hx
        apply hsame
        have : i = j := Fin.ext hx
        subst this
        simp [samePile]
      have hj7f : (j : Nat) < g.faceup_count.length := by rw [hface]; exact j.isLt
      have hj7t : (j : Nat) < g.tableau.length := by rw [hlen]; exact j.isLt
      have hs2 : sourcePile g2 (Src.tab i) = src2 := by
        rw [← hg2]
        simp only [sourcePile, dropSourceFaceup, bumpDestFaceup, setDest, setSource]
        split
        · rw [getD_set_ne _ _ _ hij.symm]
          exact getD_set_self _ _ _ _ hi7t
        · rw [getD_set_ne _ _ _ hij.symm]
          exact getD_set_self _ _ _ _ hi7t
      have hd2 : destPile g2 (Dst.tab j) = dst2 := by
        rw [← hg2]
        simp only [destPile, dropSourceFaceup, bumpDestFaceup, setDest, setSource]
        split
        · exact getD_set_self _ _ _ _ (by rw [List.length_set]; exact hj7t)
        · exact getD_set_self _ _ _ _ (by rw [List.length_set]; exact hj7t)
      have hfj : g2.faceup_count.getD j 0 = g.faceup_count.getD j 0 + n := by
        rw [← hg2]
        simp only [dropSourceFaceup, bumpDestFaceup, setDest, setSource]
        split
        · rw [getD_set_ne _ _ _ hij, getD_set_ne _ _ _ hij]
          exact getD_set_self _ _ _ _ hj7f
        · rw [getD_set_ne _ _ _ hij]
          exact getD_set_self _ _ _ _ hj7f
      have hfi : g2.faceup_count.getD i 0 =
          if g.faceup_count.getD i 0 - n = 0 ∧ src2.length ≠ 0
          then 1 else g.faceup_count.getD i 0 - n := by
        rw [← hg2]
        simp only [dropSourceFaceup, bumpDestFaceup, setDest, setSource]
        rw [getD_set_self _ _ _ _ (by rw [List.length_set]; exact hi7f),
          getD_set_ne _ _ _ hij.symm]
        by_cases hcond : g.faceup_count.getD i 0 - n = 0 ∧ src2.length ≠ 0
        · rw [if_pos hcond, if_pos hcond]
          exact getD_set_self _ _ _ _
            (by rw [List.length_set, List.length_set]; exact hi7f)
        · rw [if_neg hcond, if_neg hcond]
          exact getD_set_self _ _ _ _ (by rw [List.length_set]; exact hi7f)
      have hklen : ((sourcePile g (Src.tab i)).length : Int) - (src2.length : Int) = n := by
        omega
      constructor
      · intro j2 hj2
        cases hj2
        rw [hs2, hd2, hfj, hklen]
        constructor
        · omega
        · rfl
      · intro i2 hi2
        cases hi2
        rw [hs2, hfi, hklen]
        constructor
        · omega
        · rfl

/-- The state after moving the club deuce from column 1 onto the heart trey
on column 7 in the identity-shuffle game. -/
def movedState : Klondike :=
  { aces := [[], [], [], []],
    tableau := [[], [Card.mk 7, Card.mk 1], [Card.mk 13, Card.mk 8, Card.mk 2],
      [Card.mk 18, Card.mk 14, Card.mk 9, Card.mk 3],
      [Card.mk 22, Card.mk 19, Card.mk 15, Card.mk 10, Card.mk 4],
      [Card.mk 25, Card.mk 23, Card.mk 20, Card.mk 16, Card.mk 11, Card.mk 5],
      [Card.mk 0, Card.mk 27, Card.mk 26, Card.mk 24, Card.mk 21, Card.mk 17,
        Card.mk 12, Card.mk 6]],
    deck := ⟨List.range 52, 28⟩,
    pack := [],
    faceup_count := [0, 1, 1, 1, 1, 1, 2] }

/-- Witness for C2 on a concrete legal move (tableau 1 onto tableau 7). -/
theorem move_faceup_bookkeeping_witness :
    ((destPile movedState (Dst.tab 6)).length : Int) =
        (destPile newGameState (Dst.tab 6)).length
          + (((sourcePile newGameState (Src.tab 0)).length : Int)
              - (sourcePile movedState (Src.tab 0)).length) ∧
      movedState.faceup_count.getD (6 : Fin 7) 0 =
        newGameState.faceup_count.getD (6 : Fin 7) 0
          + (((sourcePile newGameState (Src.tab 0)).length : Int)
              - (sourcePile movedState (Src.tab 0)).length) :=
  (move_faceup_bookkeeping newGameState movedState (Src.tab 0) (Dst.tab 6)
      (by decide) (by decide)
      (fun i hi => by cases hi; constructor <;> decide)
      (by decide)).1 6 rfl

/-! ### Claim C5: 52-card conservation -/

/-- All card positions a game state holds, as one list: foundations,
tableau, pack, and the undealt portion of the deck. -/
def listAllPos (g : Klondike) : List Nat :=
  flatPos g.aces ++ flatPos g.tableau ++ pilePos g.pack
    ++ g.deck.access.drop g.deck.top

/-- The game-level invariant: the positions held across all piles and the
undealt deck are exactly 0..51 (each once), the access array is a
52-permutation with cursor in range, and the pile lists have their fixed
lengths. -/
def GInv (g : Klondike) : Prop :=
  (listAllPos g).Perm (List.range 52) ∧ g.deck.access.Perm (List.range 52)
    ∧ g.deck.top ≤ 52 ∧ g.aces.length = 4 ∧ g.tableau.length = 7

theorem flatPos_length (ls : List (List Card)) :
    (flatPos ls).length = (ls.map List.length).sum := by
  unfold flatPos
  rw [List.length_flatten, List.map_map]
  congr 1
  apply List.map_congr_left
  intro x hx
  show (pilePos x).length = x.length
  unfold pilePos
  exact List.length_map _ _

theorem totalCards_eq {g : Klondike} (hinv : GInv g) : totalCards g = 52 := by
  obtain ⟨h1, h2, h3, -, -⟩ := hinv
  have hlen52 : g.deck.access.length = 52 := by
    rw [h2.length_eq, List.length_range]
  have hl := h1.length_eq
  rw [List.length_range] at hl
  unfold listAllPos at hl
  simp only [List.length_append, List.length_drop] at hl
  rw [flatPos_length, flatPos_length] at hl
  unfold totalCards Deck.cards_left
  unfold pilePos at hl
  rw [List.length_map] at hl
  omega

/-- A successful transfer branch preserves the combined pile contents (no
well-formedness needed). -/
theorem moveBranch_perm {g : Klondike} {src : Src} {dst : Dst}
    {sp dp src2 dst2 : List Card} {n : Int}
    (h : moveBranch g src dst sp dp = .ok (src2, dst2, n)) :
    (src2 ++ dst2).Perm (sp ++ dp) := by
  have hsingle : ∀ (flag : Char), singleMove flag dp sp = .ok (src2, dst2, n) →
      (src2 ++ dst2).Perm (sp ++ dp) := by
    intro flag hh
    obtain ⟨c, rest, rfl, rfl, rfl, rfl⟩ := singleMove_ok hh
    simpa using List.perm_middle
  cases src with
  | pack =>
    cases dst with
    | found fi => exact hsingle _ (by simpa only [moveBranch] using h)
    | tab j => exact hsingle _ (by simpa only [moveBranch] using h)
  | tab i =>
    cases dst with
    | found fi => exact hsingle _ (by simpa only [moveBranch] using h)
    | tab j =>
      simp only [moveBranch] at h
      split at h
      · cases h
      · split at h
        · obtain ⟨⟨run, srem⟩, hrp, h2⟩ := ebind_eq_ok h
          obtain ⟨hrun, hsrem, -⟩ := remove_pile_ok hrp
          obtain ⟨⟨d2, e2⟩, hrcv, h3⟩ := ebind_eq_ok h2
          obtain ⟨hd2, -⟩ := receive_pile_ok hrcv
          cases h3
          subst hrun hsrem hd2
          have hp1 : ((sp.drop (g.faceup_count.getD i 0).toNat
              ++ sp.take (g.faceup_count.getD i 0).toNat) ++ dp).Perm
              ((sp.take (g.faceup_count.getD i 0).toNat
              ++ sp.drop (g.faceup_count.getD i 0).toNat) ++ dp) :=
            List.Perm.append_right dp List.perm_append_comm
          rw [List.take_append_drop] at hp1
          rw [← List.append_assoc]
          exact hp1
        · exact hsingle _ h

/-- A successful `move` preserves the game invariant. -/
theorem move_GInv {g g2 : Klondike} {src : Src} {dst : Dst}
    (hinv : GInv g) (hmv : move g src dst = .ok g2) : GInv g2 := by
  obtain ⟨hall, hacc, htop, ha4, ht7⟩ := hinv
  unfold move at hmv
  by_cases h0 : (sourcePile g src).length = 0
  · rw [if_pos h0] at hmv; cases hmv
  rw [if_neg h0] at hmv
  by_cases hsame : samePile src dst = true
  · rw [if_pos hsame] at hmv; cases hmv
  rw [if_neg hsame] at hmv
  obtain ⟨⟨src2, dst2, n⟩, hbr, hfin⟩ := ebind_eq_ok hmv
  have hg2 := Except.ok.inj hfin
  have hperm := moveBranch_perm hbr
  have hMS : (↑(pilePos src2) : Multiset Nat) + ↑(pilePos dst2) =
      ↑(pilePos (sourcePile g src)) + ↑(pilePos (destPile g dst)) := by
    have hmap := hperm.map Card.pos
    rw [List.map_append, List.map_append] at hmap
    have hco := Multiset.coe_eq_coe.mpr hmap
    rw [← Multiset.coe_add, ← Multiset.coe_add] at hco
    exact hco
  suffices hh : (↑(listAllPos g2) : Multiset Nat) = ↑(listAllPos g) ∧
      g2.deck = g.deck ∧ g2.aces.length = 4 ∧ g2.tableau.length = 7 by
    obtain ⟨hh1, hh2, hh3, hh4⟩ := hh
    refine ⟨Multiset.coe_eq_coe.mp (hh1.trans (Multiset.coe_eq_coe.mpr hall)),
      ?_, ?_, hh3, hh4⟩
    · rw [hh2]; exact hacc
    · rw [hh2]; exact htop
  cases src with
  | pack =>
    cases dst with
    | found fi =>
      have hf4 : (fi : Nat) < g.aces.length := by rw [ha4]; exact fi.isLt
      have hfields : g2.aces = g.aces.set fi dst2 ∧ g2.tableau = g.tableau ∧
          g2.pack = src2 ∧ g2.deck = g.deck := by
        rw [← hg2]
        exact ⟨rfl, rfl, rfl, rfl⟩
      obtain ⟨hA, hT, hP, hD⟩ := hfields
      refine ⟨?_, hD, by rw [hA, List.length_set, ha4], by rw [hT, ht7]⟩
      unfold listAllPos
      rw [hA, hT, hP, hD]
      simp only [← Multiset.coe_add]
      have h1 := flatPos_set g.aces fi dst2 hf4
      simp only [sourcePile, destPile] at hMS
      set A : Multiset Nat := (↑(flatPos g.aces) : Multiset Nat)
      set A2 : Multiset Nat := (↑(flatPos (g.aces.set (fi : Nat) dst2)) : Multiset Nat)
      set T : Multiset Nat := (↑(flatPos g.tableau) : Multiset Nat)
      set P : Multiset Nat := (↑(pilePos g.pack) : Multiset Nat)
      set D : Multiset Nat := (↑(g.deck.access.drop g.deck.top) : Multiset Nat)
      set S2 : Multiset Nat := (↑(pilePos src2) : Multiset Nat)
      set E2 : Multiset Nat := (↑(pilePos dst2) : Multiset Nat)
      set W : Multiset Nat := (↑(pilePos (g.aces.getD (fi : Nat) [])) : Multiset Nat)
      have ext : A2 + T + S2 + D + (W + E2) = A + T + P + D + (W + E2) := by
        calc A2 + T + S2 + D + (W + E2)
            = (A2 + W) + (S2 + E2) + (T + D) := by abel
          _ = (E2 + A) + (S2 + E2) + (T + D) := by rw [h1]
          _ = (E2 + A) + (P + W) + (T + D) := by rw [hMS]
          _ = A + T + P + D + (W + E2) := by abel
      exact add_right_cancel ext
    | tab j =>
      have hj7 : (j : Nat) < g.tableau.length := by rw [ht7]; exact j.isLt
      have hfields : g2.aces = g.aces ∧ g2.tableau = g.tableau.set j dst2 ∧
          g2.pack = src2 ∧ g2.deck = g.deck := by
        rw [← hg2]
        exact ⟨rfl, rfl, rfl, rfl⟩
      obtain ⟨hA, hT, hP, hD⟩ := hfields
      refine ⟨?_, hD, by rw [hA, ha4], by rw [hT, List.length_set, ht7]⟩
      unfold listAllPos
      rw [hA, hT, hP, hD]
      simp only [← Multiset.coe_add]
      have h1 := flatPos_set g.tableau j dst2 hj7
      simp only [sourcePile, destPile] at hMS
      set A : Multiset Nat := (↑(flatPos g.aces) : Multiset Nat)
      set T : Multiset Nat := (↑(flatPos g.tableau) : Multiset Nat)
      set T2 : Multiset Nat := (↑(flatPos (g.tableau.set (j : Nat) dst2)) : Multiset Nat)
      set P : Multiset Nat := (↑(pilePos g.pack) : Multiset Nat)
      set D : Multiset Nat := (↑(g.deck.access.drop g.deck.top) : Multiset Nat)
      set S2 : Multiset Nat := (↑(pilePos src2) : Multiset Nat)
      set E2 : Multiset Nat := (↑(pilePos dst2) : Multiset Nat)
      set W : Multiset Nat := (↑(pilePos (g.tableau.getD (j : Nat) [])) : Multiset Nat)
      have ext : A + T2 + S2 + D + (W + E2) = A + T + P + D + (W + E2) := by
        calc A + T2 + S2 + D + (W + E2)
            = (T2 + W) + (S2 + E2) + (A + D) := by abel
          _ = (E2 + T) + (S2 + E2) + (A + D) := by rw [h1]
          _ = (E2 + T) + (P + W) + (A + D) := by rw [hMS]
          _ = A + T + P + D + (W + E2) := by abel
      exact add_right_cancel ext
  | tab i =>
    have hi7 : (i : Nat) < g.tableau.length := by rw [ht7]; exact i.isLt
    cases dst with
    | found fi =>
      have hf4 : (fi : Nat) < g.aces.length := by rw [ha4]; exact fi.isLt
      have hfields : g2.aces = g.aces.set fi dst2 ∧
          g2.tableau = g.tableau.set i src2 ∧
          g2.pack = g.pack ∧ g2.deck = g.deck := by
        rw [← hg2]
        simp only [dropSourceFaceup, bumpDestFaceup, setDest, setSource]
        split
        · exact ⟨rfl, rfl, rfl, rfl⟩
        · exact ⟨rfl, rfl, rfl, rfl⟩
      obtain ⟨hA, hT, hP, hD⟩ := hfields
      refine ⟨?_, hD, by rw [hA, List.length_set, ha4],
        by rw [hT, List.length_set, ht7]⟩
      unfold listAllPos
      rw [hA, hT, hP, hD]
      simp only [← Multiset.coe_add]
      have h1 := flatPos_set g.aces fi dst2 hf4
      have h2 := flatPos_set g.tableau i src2 hi7
      simp only [sourcePile, destPile] at hMS
      set A : Multiset Nat := (↑(flatPos g.aces) : Multiset Nat)
      set A2 : Multiset Nat := (↑(flatPos (g.aces.set (fi : Nat) dst2)) : Multiset Nat)
      set T : Multiset Nat := (↑(flatPos g.tableau) : Multiset Nat)
      set T2 : Multiset Nat := (↑(flatPos (g.tableau.set (i : Nat) src2)) : Multiset Nat)
      set P : Multiset Nat := (↑(pilePos g.pack) : Multiset Nat)
      set D : Multiset Nat := (↑(g.deck.access.drop g.deck.top) : Multiset Nat)
      set S2 : Multiset Nat := (↑(pilePos src2) : Multiset Nat)
      set E2 : Multiset Nat := (↑(pilePos dst2) : Multiset Nat)
      set W : Multiset Nat := (↑(pilePos (g.aces.getD (fi : Nat) [])) : Multiset Nat)
      set V : Multiset Nat := (↑(pilePos (g.tableau.getD (i : Nat) [])) : Multiset Nat)
      have ext : A2 + T2 + P + D + (W + V) = A + T + P + D + (W + V) := by
        calc A2 + T2 + P + D + (W + V)
            = (A2 + W) + (T2 + V) + (P + D) := by abel
          _ = (E2 + A) + (T2 + V) + (P + D) := by rw [h1]
          _ = (E2 + A) + (S2 + T) + (P + D) := by rw [h2]
          _ = (S2 + E2) + (A + T) + (P + D) := by abel
          _ = (V + W) + (A + T) + (P + D) := by rw [hMS]
          _ = A + T + P + D + (W + V) := by abel
      exact add_right_cancel ext
    | tab j =>
      have hij : (i : Nat) ≠ (j : Nat) := by
        intro hx
        apply hsame
        have hx2 : i = j := Fin.ext hx
        subst hx2
        simp [samePile]
      have hj7 : (j : Nat) < g.tableau.length := by rw [ht7]; exact j.isLt
      have hfields : g2.aces = g.aces ∧
          g2.tableau = (g.tableau.set i src2).set j dst2 ∧
          g2.pack = g.pack ∧ g2.deck = g.deck := by
        rw [← hg2]
        simp only [dropSourceFaceup, bumpDestFaceup, setDest, setSource]
        split
        · exact ⟨rfl, rfl, rfl, rfl⟩
        · exact ⟨rfl, rfl, rfl, rfl⟩
      obtain ⟨hA, hT, hP, hD⟩ := hfields
      refine ⟨?_, hD, by rw [hA, ha4],
        by rw [hT, List.length_set, List.length_set, ht7]⟩
      unfold listAllPos
      rw [hA, hT, hP, hD]
      simp only [← Multiset.coe_add]
      have h1 := flatPos_set g.tableau i src2 hi7
      have h2 := flatPos_set (g.tableau.set i src2) j dst2
        (by rw [List.length_set]; exact hj7)
      rw [getD_set_ne _ _ _ hij] at h2
      simp only [sourcePile, destPile] at hMS
      set A : Multiset Nat := (↑(flatPos g.aces) : Multiset Nat)
      set T : Multiset Nat := (↑(flatPos g.tableau) : Multiset Nat)
      set T1 : Multiset Nat := (↑(flatPos (g.tableau.set (i : Nat) src2)) : Multiset Nat)
      set T2 : Multiset Nat :=
        (↑(flatPos ((g.tableau.set (i : Nat) src2).set (j : Nat) dst2)) : Multiset Nat)
      set P : Multiset Nat := (↑(pilePos g.pack) : Multiset Nat)
      set D : Multiset Nat := (↑(g.deck.access.drop g.deck.top) : Multiset Nat)
      set S2 : Multiset Nat := (↑(pilePos src2) : Multiset Nat)
      set E2 : Multiset Nat := (↑(pilePos dst2) : Multiset Nat)
      set W : Multiset Nat := (↑(pilePos (g.tableau.getD (j : Nat) [])) : Multiset Nat)
      set V : Multiset Nat := (↑(pilePos (g.tableau.getD (i : Nat) [])) : Multiset Nat)
      have ext : A + T2 + P + D + (W + V) = A + T + P + D + (W + V) := by
        calc A + T2 + P + D + (W + V)
            = (T2 + W) + V + (A + (P + D)) := by abel
          _ = (E2 + T1) + V + (A + (P + D)) := by rw [h2]
          _ = E2 + (T1 + V) + (A + (P + D)) := by abel
          _ = E2 + (S2 + T) + (A + (P + D)) := by rw [h1]
          _ = (S2 + E2) + T + (A + (P + D)) := by abel
          _ = (V + W) + T + (A + (P + D)) := by rw [hMS]
          _ = A + T + P + D + (W + V) := by abel
      exact add_right_cancel ext

theorem map_mk_pos (l : List Nat) : (l.map Card.mk).map Card.pos = l := by
  induction l with
  | nil => rfl
  | cons a t ih => rw [List.map_cons, List.map_cons, ih]

theorem listAllPos_update (g : Klondike) (d : Deck) (p : List Card) :
    listAllPos { g with deck := d, pack := p } =
      flatPos g.aces ++ flatPos g.tableau ++ pilePos p ++ d.access.drop d.top := rfl

/-- The deal-to-pack loop of `turn_the_deck` preserves the game invariant. -/
theorem dealLoop_GInv {g g2 : Klondike} (hinv : GInv g)
    (h : dealToPackLoop (min 3 g.deck.cards_left) g = .ok g2) : GInv g2 := by
  obtain ⟨hall, hacc, htop, ha4, ht7⟩ := hinv
  have hlen52 : g.deck.access.length = 52 := by
    rw [hacc.length_eq, List.length_range]
  have hk1 : g.deck.top + min 3 g.deck.cards_left ≤ g.deck.access.length := by
    unfold Deck.cards_left
    omega
  have hk2 : g.deck.top + min 3 g.deck.cards_left ≤ 52 := by omega
  have hndall : (listAllPos g).Nodup := hall.nodup_iff.mpr (List.nodup_range 52)
  unfold listAllPos at hndall
  rw [List.nodup_append] at hndall
  obtain ⟨hX, hdr, hdisj1⟩ := hndall
  have hndtake :
      ((g.deck.access.drop g.deck.top).take (min 3 g.deck.cards_left)).Nodup :=
    (List.take_sublist _ _).nodup hdr
  have hdisj : ∀ q ∈ (g.deck.access.drop g.deck.top).take (min 3 g.deck.cards_left),
      q ∉ pilePos g.pack := by
    intro q hq hqpk
    exact hdisj1 (by rw [List.mem_append]; exact Or.inr hqpk)
      ((List.take_subset _ _) hq)
  have hrun := dealToPackLoop_run (min 3 g.deck.cards_left) g hk1 hk2 hndtake hdisj
  have hg2 := Except.ok.inj (hrun.symm.trans h)
  rw [← hg2]
  refine ⟨?_, hacc, hk2, ha4, ht7⟩
  rw [listAllPos_update]
  refine List.Perm.trans (Multiset.coe_eq_coe.mp ?_) hall
  unfold listAllPos
  have hpp : pilePos
      ((((g.deck.access.drop g.deck.top).take (min 3 g.deck.cards_left)).reverse).map Card.mk
        ++ g.pack) =
      ((g.deck.access.drop g.deck.top).take (min 3 g.deck.cards_left)).reverse
        ++ pilePos g.pack := by
    unfold pilePos
    rw [List.map_append]
    congr 1
    exact map_mk_pos _
  have hdr2 : g.deck.access.drop g.deck.top =
      (g.deck.access.drop g.deck.top).take (min 3 g.deck.cards_left)
        ++ g.deck.access.drop (g.deck.top + min 3 g.deck.cards_left) := by
    conv_lhs =>
      rw [← List.take_append_drop (min 3 g.deck.cards_left)
        (g.deck.access.drop g.deck.top)]
    rw [List.drop_drop]
  rw [hpp]
  conv_rhs => rw [hdr2]
  simp only [← Multiset.coe_add]
  rw [Multiset.coe_reverse]
  abel

/-- `turn_the_deck` preserves the game invariant. -/
theorem turn_GInv {g g2 : Klondike} (hinv : GInv g)
    (h : turn_the_deck g = .ok g2) : GInv g2 := by
  unfold turn_the_deck at h
  by_cases hexh : g.deck.cards_left = 0
  swap
  · rw [if_neg hexh] at h
    exact dealLoop_GInv hinv h
  rw [if_pos hexh] at h
  by_cases hpk : g.pack.length ≠ 0
  swap
  · rw [if_neg hpk] at h
    cases h
    exact hinv
  rw [if_pos hpk] at h
  obtain ⟨hall, hacc, htop, ha4, ht7⟩ := hinv
  have hlen52 : g.deck.access.length = 52 := by
    rw [hacc.length_eq, List.length_range]
  have htop52 : g.deck.top = 52 := by
    unfold Deck.cards_left at hexh
    omega
  have hndA : g.deck.access.Nodup := hacc.nodup_iff.mpr (List.nodup_range 52)
  have hndall : (listAllPos g).Nodup := hall.nodup_iff.mpr (List.nodup_range 52)
  have hndpk : (pilePos g.pack).Nodup := by
    unfold listAllPos at hndall
    rw [List.nodup_append] at hndall
    obtain ⟨hX, -, -⟩ := hndall
    rw [List.nodup_append] at hX
    exact hX.2.1
  have hrev_nd : (pilePos (turn_over g.pack)).Nodup := by
    unfold turn_over pilePos
    rw [List.map_reverse]
    exact List.nodup_reverse.mpr hndpk
  have hdropnil : g.deck.access.drop g.deck.top = [] := by
    rw [htop52, ← hlen52, List.drop_length]
  have hundall : ∀ c ∈ turn_over g.pack, c.pos ∉ g.deck.access.drop g.deck.top := by
    intro c hc
    rw [hdropnil]
    simp
  have hmemall : ∀ c ∈ turn_over g.pack, c.pos ∈ g.deck.access := by
    intro c hc
    unfold turn_over at hc
    have hc2 : c ∈ g.pack := List.mem_reverse.mp hc
    have hpos : c.pos ∈ listAllPos g := by
      unfold listAllPos
      rw [List.mem_append, List.mem_append]
      exact Or.inl (Or.inr (List.mem_map_of_mem Card.pos hc2))
    have := hall.mem_iff.mp hpos
    exact hacc.mem_iff.mpr this
  obtain ⟨a2, hput, hpermA, hlenle, hdropA⟩ :=
    put_back_pile_run (turn_over g.pack) g.deck hrev_nd hndA (by omega) hmemall hundall
  have hrevlen : (turn_over g.pack).length = g.pack.length := by
    unfold turn_over; simp
  have hn52 : g.pack.length ≤ 52 := by
    rw [← hrevlen, ← htop52]; exact hlenle
  have hsub : g.deck.top - (turn_over g.pack).length = 52 - g.pack.length := by
    rw [htop52, hrevlen]
  have ha2len : a2.length = g.deck.access.length := hpermA.length_eq
  have hput2 : Deck.put_back_pile (turn_over g.pack) g.deck =
      .ok (⟨a2, 52 - g.pack.length⟩, []) := by rw [hput, hsub]
  rw [hput2, ebind_ok] at h
  have h2 : dealToPackLoop (min 3 (Deck.cards_left ⟨a2, 52 - g.pack.length⟩))
      { g with deck := ⟨a2, 52 - g.pack.length⟩, pack := [] } = .ok g2 := h
  have hdropA2 : a2.drop (52 - g.pack.length) = pilePos (turn_over g.pack) := by
    rw [← hsub, hdropA, hdropnil, List.nil_append]
  have hinvmid : GInv { g with deck := (⟨a2, 52 - g.pack.length⟩ : Deck), pack := ([] : List Card) } := by
    refine ⟨?_, hpermA.trans hacc, by show 52 - g.pack.length ≤ 52; omega, ha4, ht7⟩
    rw [listAllPos_update]
    refine List.Perm.trans (Multiset.coe_eq_coe.mp ?_) hall
    unfold listAllPos
    show (↑(flatPos g.aces ++ flatPos g.tableau ++ pilePos []
        ++ a2.drop (52 - g.pack.length)) : Multiset Nat) = _
    rw [hdropA2, hdropnil]
    unfold turn_over pilePos
    rw [List.map_reverse]
    simp only [List.map_nil, List.append_nil, ← Multiset.coe_add]
    rw [Multiset.coe_reverse]
  exact dealLoop_GInv hinvmid h2

/-- Multiset accounting for the inner deal loop: the positions gained by the
tableau columns are exactly those consumed from the undealt deck slice. -/
theorem dealInner_pos {k p : Nat} {d : Deck} {t : List (List Card)}
    {d2 : Deck} {t2 : List (List Card)}
    (h : dealInner k p d t = .ok (d2, t2)) (hpk : p + k ≤ t.length)
    (hlen52 : d.access.length = 52) :
    (k ≠ 0 → d.top + k ≤ 52) ∧
      (↑(flatPos t2) : Multiset Nat) + ↑(d.access.drop (d.top + k)) =
        ↑(flatPos t) + ↑(d.access.drop d.top) := by
  induction k generalizing p d t with
  | zero =>
    simp only [dealInner] at h
    cases h
    exact ⟨by omega, by rw [Nat.add_zero]⟩
  | succ m ih =>
    unfold dealInner at h
    obtain ⟨⟨c, dmid⟩, hdeal, h2⟩ := ebind_eq_ok h
    obtain ⟨col, hrecv, h3⟩ := ebind_eq_ok h2
    unfold Deck.deal at hdeal
    by_cases htop : d.top ≤ 51
    swap
    · rw [if_neg htop] at hdeal
      cases hdeal
    rw [if_pos htop] at hdeal
    cases hdeal
    unfold receive at hrecv
    by_cases hmem : (⟨d.access.getD d.top 0⟩ : Card).pos ∈ pilePos (t.getD p [])
    · rw [if_pos hmem] at hrecv
      cases hrecv
    rw [if_neg hmem] at hrecv
    cases hrecv
    obtain ⟨hb, hih⟩ := ih h3 (by rw [List.length_set]; omega) hlen52
    have hbound : (m ≠ 0 → d.top + 1 + m ≤ 52) := hb
    have hih2 : (↑(flatPos t2) : Multiset Nat) + ↑(d.access.drop (d.top + 1 + m)) =
        ↑(flatPos (t.set p ((⟨d.access.getD d.top 0⟩ : Card) :: t.getD p [])))
          + ↑(d.access.drop (d.top + 1)) := hih
    refine ⟨by intro _; by_cases hm : m = 0 <;> [omega; exact (by have := hbound hm; omega)], ?_⟩
    have hdropc : d.access.drop d.top =
        d.access.getD d.top 0 :: d.access.drop (d.top + 1) := by
      rw [List.drop_eq_getElem_cons (show d.top < d.access.length by omega)]
      congr 1
      exact (List.getD_eq_getElem _ _ (by omega)).symm
    have hfs := flatPos_set t p ((⟨d.access.getD d.top 0⟩ : Card) :: t.getD p []) (by omega)
    have hcol : pilePos ((⟨d.access.getD d.top 0⟩ : Card) :: t.getD p []) =
        d.access.getD d.top 0 :: pilePos (t.getD p []) := rfl
    have harith : d.top + (m + 1) = d.top + 1 + m := by omega
    rw [harith, hih2]
    have ext2 : (↑(flatPos (t.set p ((⟨d.access.getD d.top 0⟩ : Card) :: t.getD p []))) : Multiset Nat)
        + ↑(d.access.drop (d.top + 1)) + ↑(pilePos (t.getD p [])) =
        ↑(flatPos t) + ↑(d.access.drop d.top) + ↑(pilePos (t.getD p [])) := by
      calc (↑(flatPos (t.set p ((⟨d.access.getD d.top 0⟩ : Card) :: t.getD p []))) : Multiset Nat)
          + ↑(d.access.drop (d.top + 1)) + ↑(pilePos (t.getD p []))
          = (↑(flatPos (t.set p ((⟨d.access.getD d.top 0⟩ : Card) :: t.getD p []))) : Multiset Nat)
              + ↑(pilePos (t.getD p [])) + ↑(d.access.drop (d.top + 1)) := by abel
        _ = ↑(pilePos ((⟨d.access.getD d.top 0⟩ : Card) :: t.getD p [])) + ↑(flatPos t)
              + ↑(d.access.drop (d.top + 1)) := by rw [hfs]
        _ = ({d.access.getD d.top 0} + ↑(pilePos (t.getD p []))) + ↑(flatPos t)
              + ↑(d.access.drop (d.top + 1)) := by
            rw [hcol, ← Multiset.cons_coe, ← Multiset.singleton_add]
        _ = ↑(flatPos t) + ({d.access.getD d.top 0} + ↑(d.access.drop (d.top + 1)))
              + ↑(pilePos (t.getD p [])) := by abel
        _ = ↑(flatPos t) + ↑(d.access.getD d.top 0 :: d.access.drop (d.top + 1))
              + ↑(pilePos (t.getD p [])) := by
            rw [Multiset.singleton_add, Multiset.cons_coe]
        _ = ↑(flatPos t) + ↑(d.access.drop d.top) + ↑(pilePos (t.getD p [])) := by
            rw [← hdropc]
    exact add_right_cancel ext2

/-- Multiset accounting for the outer triangular deal loop. -/
theorem dealOuter_pos {k j : Nat} {d : Deck} {t : List (List Card)}
    {d2 : Deck} {t2 : List (List Card)}
    (h : dealOuter k j d t = .ok (d2, t2)) (hjk : j + k ≤ 7) (htlen : t.length = 7)
    (hlen52 : d.access.length = 52) (htople : d.top ≤ 52) :
    d2.access = d.access ∧ d2.top ≤ 52 ∧
      (↑(flatPos t2) : Multiset Nat) + ↑(d.access.drop d2.top) =
        ↑(flatPos t) + ↑(d.access.drop d.top) := by
  induction k generalizing j d t with
  | zero =>
    simp only [dealOuter] at h
    cases h
    exact ⟨rfl, htople, rfl⟩
  | succ m ih =>
    unfold dealOuter at h
    obtain ⟨⟨dmid, tmid⟩, hinner, hrest⟩ := ebind_eq_ok h
    obtain ⟨hacc, htopmid, htmlen, -⟩ := dealInner_ok hinner (by omega)
    obtain ⟨hb, hsum1⟩ := dealInner_pos hinner (by omega) hlen52
    have hmidtop : dmid.top ≤ 52 := by
      rw [htopmid]
      exact hb (by omega)
    obtain ⟨hacc2, htop2, hsum2⟩ := ih hrest (by omega) (by rw [htmlen, htlen])
      (by rw [hacc]; exact hlen52) hmidtop
    refine ⟨hacc2.trans hacc, htop2, ?_⟩
    rw [hacc, htopmid] at hsum2
    exact hsum2.trans hsum1

/-- A freshly dealt game satisfies the game invariant. -/
theorem newGame_GInv {shuffled : List Nat} {g : Klondike}
    (hperm : shuffled.Perm (List.range 52)) (h : newGame shuffled = .ok g) :
    GInv g := by
  unfold newGame at h
  have hsh : Deck.init.shuffle shuffled = .ok ⟨shuffled, 0⟩ := rfl
  rw [hsh, ebind_ok] at h
  obtain ⟨⟨d1, tab⟩, hdeal, hfin⟩ := ebind_eq_ok h
  have hlen52 : shuffled.length = 52 := by rw [hperm.length_eq, List.length_range]
  obtain ⟨hacc, htop1, hsum⟩ := dealOuter_pos hdeal (by omega) (by simp)
    (by show shuffled.length = 52; exact hlen52) (by show (0 : Nat) ≤ 52; omega)
  obtain ⟨hlen7, -⟩ := dealOuter_len hdeal (by omega) (by simp)
  cases hfin
  have hacc2 : d1.access = shuffled := hacc
  have hsum2 : (↑(flatPos tab) : Multiset Nat) + ↑(shuffled.drop d1.top) =
      ↑(flatPos (List.replicate 7 ([] : List Card))) + ↑(shuffled.drop 0) := hsum
  refine ⟨?_, by show d1.access.Perm _; rw [hacc2]; exact hperm, htop1, rfl, hlen7⟩
  refine List.Perm.trans (Multiset.coe_eq_coe.mp ?_) hperm
  show (↑(flatPos ([[], [], [], []] : List (List Card)) ++ flatPos tab ++ pilePos []
      ++ d1.access.drop d1.top) : Multiset Nat) = ↑shuffled
  rw [hacc2]
  have hflat : flatPos ([[], [], [], []] : List (List Card)) = [] := rfl
  have hpp : pilePos ([] : List Card) = [] := rfl
  rw [hflat, hpp, List.nil_append, List.append_nil, ← Multiset.coe_add, hsum2]
  have hrep : flatPos (List.replicate 7 ([] : List Card)) = [] := rfl
  rw [hrep, List.drop_zero]
  simp

/-- C5: in every game state reachable from `newGame` by successful `move`
and `turn_the_deck` operations, the total number of cards held by the four
foundations, the seven tableau columns, the pack, and the undealt portion
of the deck is exactly 52. -/
theorem total_card_conservation (g : Klondike) (h : Reach g) : totalCards g = 52 := by
  have hinv : GInv g := by
    induction h with
    | init shuffled g hperm hok => exact newGame_GInv hperm hok
    | mv g src dst g2 hr hmv ih => exact move_GInv ih hmv
    | turn g g2 hr ht ih => exact turn_GInv ih ht
  exact totalCards_eq hinv

/-- Witness for C5 at the identity-shuffle new game. -/
theorem total_card_conservation_witness : totalCards newGameState = 52 :=
  total_card_conservation newGameState
    (Reach.init (List.range 52) newGameState (List.Perm.refl _) (by decide))
